import Mathlib

/-!
Verification development for an nginx-configuration formatter
(`nginxfmt.py`).  The source program is shallowly embedded: Python strings
become `List Char`, each Python helper becomes an executable Lean function
translated from the source, and `format_string` is the composition of the
pipeline stages exactly as in the source.
-/

set_option maxRecDepth 10000

/-- Strings are modelled as lists of characters. -/
abbrev Str := List Char

/-- Turn a Lean string literal into the model representation. -/
def str (s : String) : Str := s.data

/-- Newline character. -/
def nl : Char := '\n'

/-- Opening curly brace (written via its code point). -/
def obr : Char := '\x7b'

/-- Closing curly brace (written via its code point). -/
def cbr : Char := '\x7d'

/-- Single-quote character. -/
def sqc : Char := Char.ofNat 39

/-- Backslash character. -/
def bsl : Char := Char.ofNat 92

/-- Python's `\s` for the ASCII range: space, tab, newline, carriage
return, vertical tab, form feed. -/
def isPySpace (c : Char) : Bool :=
  c = ' ' || c = '\t' || c = '\n' || c = '\r' || c = '\x0b' || c = '\x0c'

/-- Characters at which Python's `str.splitlines` breaks a line. -/
def isBreakChar (c : Char) : Bool :=
  c = '\n' || c = '\r' || c = '\x0b' || c = '\x0c' ||
  c = '\x1c' || c = '\x1d' || c = '\x1e' || c = '\x85' ||
  c = Char.ofNat 0x2028 || c = Char.ofNat 0x2029

/-- Python's `str.strip()` (ASCII whitespace). -/
def pyStrip (s : Str) : Str :=
  ((s.dropWhile isPySpace).reverse.dropWhile isPySpace).reverse

/-- Number of occurrences of a character (Python `s.count(c)` for a
one-character needle). -/
def countChar (c : Char) (s : Str) : Nat :=
  s.countP (fun x => x = c)

/-- Python `s.split(c)` / `re.split` on a single literal character:
splits at every occurrence, keeping empty pieces. -/
def splitOnChar (c : Char) : Str → List Str
  | [] => [[]]
  | x :: xs =>
    let r := splitOnChar c xs
    if x = c then [] :: r
    else
      match r with
      | [] => [[x]]
      | h :: t => (x :: h) :: t

/-- Python `str.splitlines`: splits on the line-break characters, treating
`\r\n` as a single break, and producing no trailing empty line. -/
def splitlines : Str → List Str
  | [] => []
  | c :: rest =>
    if c = '\r' then
      match rest with
      | c2 :: r2 => if c2 = '\n' then [] :: splitlines r2 else [] :: splitlines (c2 :: r2)
      | [] => [[]]
    else if isBreakChar c then
      [] :: splitlines rest
    else
      match splitlines rest with
      | [] => [[c]]
      | h :: t => (c :: h) :: t

/-- `re.sub(r'[\s]+', ' ', s)`: every maximal run of whitespace becomes a
single space.  The flag records whether the previous character was
whitespace. -/
def collapseWsGo (prevWs : Bool) : Str → Str
  | [] => []
  | c :: rest =>
    if isPySpace c then
      if prevWs then collapseWsGo true rest
      else ' ' :: collapseWsGo true rest
    else c :: collapseWsGo false rest

/-- Whitespace-run collapapse over a whole string. -/
def collapseWs (s : Str) : Str := collapseWsGo false s

/-- Python `str.startswith` for the model. -/
def startsWith (p s : Str) : Bool := p.isPrefixOf s

/-- Python `str.endswith` for a single character. -/
def endsWithChar (c : Char) (s : Str) : Bool :=
  match s.getLast? with
  | some x => x = c
  | none => false

/-- `'sep'.join(parts)` for a one-character separator. -/
def joinChar (c : Char) : List Str → Str
  | [] => []
  | [p] => p
  | p :: ps => p ++ c :: joinChar c ps

/-- Python `str.replace(pat, repl)` (global, leftmost, non-overlapping),
fuelled by the length of the scanned string; the patterns used by the
source are non-empty, so length fuel suffices. -/
def replaceSubstrGo (pat repl : Str) : Nat → Str → Str
  | _, [] => []
  | 0, s => s
  | fuel + 1, c :: rest =>
    if pat.isPrefixOf (c :: rest) then
      repl ++ replaceSubstrGo pat repl fuel ((c :: rest).drop pat.length)
    else
      c :: replaceSubstrGo pat repl fuel rest

/-- Python `str.replace` wrapper. -/
def replaceSubstr (s pat repl : Str) : Str :=
  replaceSubstrGo pat repl s.length s

/-! ### Embedding of `nginxfmt.py` -/

/-- `Formatter._TEMPLATE_VARIABLE_OPENING_TAG`. -/
def varOpenTag : Str := "___TEMPLATE_VARIABLE_OPENING_TAG___".data

/-- `Formatter._TEMPLATE_VARIABLE_CLOSING_TAG`. -/
def varCloseTag : Str := "___TEMPLATE_VARIABLE_CLOSING_TAG___".data

/-- `Formatter._TEMPLATE_BRACKET_OPENING_TAG`. -/
def brOpenTag : Str := "___TEMPLATE_BRACKET_OPENING_TAG___".data

/-- `Formatter._TEMPLATE_BRACKET_CLOSING_TAG`. -/
def brCloseTag : Str := "___TEMPLATE_BRACKET_CLOSING_TAG___".data

/-- Python's `\w` (ASCII range): letters, digits, underscore. -/
def isWordChar (c : Char) : Bool := c.isAlphanum || c = '_'

/-- Apply `f` to the parts at even positions (outside quotation marks) and
keep the parts at odd positions verbatim; the Boolean is the
`within_quotes` flag of the source loops. -/
def mapAlt (f : Str → Str) : Bool → List Str → List Str
  | _, [] => []
  | w, p :: ps => (if w then p else f p) :: mapAlt f (!w) ps

/-- `Formatter._strip_line`: strip the line; keep comments as they are;
otherwise collapse whitespace runs outside double quotes. -/
def strip_line (single_line : Str) : Str :=
  let s := pyStrip single_line
  if startsWith ['#'] s then s
  else joinChar '"' (mapAlt collapseWs false (splitOnChar '"' s))

/-- Loop of `Formatter._count_multi_semicolon`: `q` is set to 1 when any
part lies within quotes, `c` sums the semicolons of the outside parts. -/
def countMSGo : Bool → Nat → Nat → List Str → Nat × Nat
  | _, q, c, [] => (q, c)
  | w, q, c, p :: ps =>
    if w then countMSGo (!w) 1 c ps
    else countMSGo (!w) q (c + countChar ';' p) ps

/-- `Formatter._count_multi_semicolon`. -/
def count_multi_semicolon (single_line : Str) : Nat × Nat :=
  let s := pyStrip single_line
  if startsWith ['#'] s then (0, 0)
  else countMSGo false 0 0 (splitOnChar '"' s)

/-- `part.replace(";", ";\n")`. -/
def repSemi (s : Str) : Str :=
  (s.map (fun c => if c = ';' then [';', '\n'] else [c])).flatten

/-- `Formatter.multi_semicolon`: insert a newline after every semicolon
that is outside double quotes. -/
def multi_semicolon (single_line : Str) : Str :=
  let s := pyStrip single_line
  if startsWith ['#'] s then s
  else joinChar '"' (mapAlt repSemi false (splitOnChar '"' s))

/-- Matcher for the pattern `\$\{\s*(\w+)\s*\}` at the head of the string;
returns the captured word and the remainder after the match.  The pattern
is deterministic: `\s`, `\w` and the closing brace are disjoint, so no
backtracking can succeed where this matcher fails. -/
def matchVarRef : Str → Option (Str × Str)
  | '$' :: c1 :: rest1 =>
    if c1 = obr then
      let afterWs := rest1.dropWhile isPySpace
      let w := afterWs.takeWhile isWordChar
      let after2 := (afterWs.dropWhile isWordChar).dropWhile isPySpace
      match after2 with
      | c2 :: rest2 => if c2 = cbr then (if w = [] then none else some (w, rest2)) else none
      | [] => none
    else none
  | _ => none

/-- Left-to-right, non-overlapping substitution scan for
`apply_variable_template_tags`; fuel is the length of the string (every
step consumes at least one character). -/
def applyVarGo : Nat → Str → Str
  | 0, s => s
  | _, [] => []
  | fuel + 1, c :: rest =>
    match matchVarRef (c :: rest) with
    | some (w, after) => varOpenTag ++ w ++ varCloseTag ++ applyVarGo fuel after
    | none => c :: applyVarGo fuel rest

/-- `Formatter.apply_variable_template_tags`. -/
def apply_variable_template_tags (line : Str) : Str :=
  applyVarGo line.length line

/-- Largest `k ≥ 1` such that the closing variable tag starts at offset
`k` of `w ++ a`; this emulates the backtracking of the greedy `\w+` in
the pattern of `strip_variable_template_tags` (the regex engine gives
back as few characters as possible, hence the lexically last
occurrence). -/
def largestCloseAt (w a : Str) : Option Nat :=
  ((List.range w.length).filter
    (fun k => decide (1 ≤ k) && varCloseTag.isPrefixOf (w.drop k ++ a))).max?

/-- Matcher for `TAGO\s*(\w+)\s*TAGC` at the head of the string.  The
greedy `\w+` first tries to end at the maximal word run (with the
following whitespace run before the closing tag), then backtracks to the
latest in-run position where the closing tag starts. -/
def matchStripVar (s : Str) : Option (Str × Str) :=
  if varOpenTag.isPrefixOf s then
    let r1 := (s.drop varOpenTag.length).dropWhile isPySpace
    let w := r1.takeWhile isWordChar
    let a := r1.dropWhile isWordChar
    let a2 := a.dropWhile isPySpace
    if w ≠ [] ∧ varCloseTag.isPrefixOf a2 then
      some (w, a2.drop varCloseTag.length)
    else
      match largestCloseAt w a with
      | some k => some (w.take k, (w.drop k ++ a).drop varCloseTag.length)
      | none => none
  else none

/-- Substitution scan for `strip_variable_template_tags`. -/
def stripVarGo : Nat → Str → Str
  | 0, s => s
  | _, [] => []
  | fuel + 1, c :: rest =>
    match matchStripVar (c :: rest) with
    | some (word, after) => '$' :: obr :: (word ++ cbr :: stripVarGo fuel after)
    | none => c :: stripVarGo fuel rest

/-- `Formatter.strip_variable_template_tags`: replaces the variable tags
back with `${` and `}`. -/
def strip_variable_template_tags (line : Str) : Str :=
  stripVarGo line.length line

/-- Character scan of `Formatter.apply_bracket_template_tags` for one
line: quote state toggles on every `'` or `"` not preceded by a
backslash, and braces inside quotes become the bracket tags. -/
def brGo (inQ prevBS : Bool) : Str → Str
  | [] => []
  | c :: rest =>
    let inQ' := if (c = '"' ∨ c = sqc) ∧ prevBS = false then !inQ else inQ
    (if inQ' then (if c = obr then brOpenTag else if c = cbr then brCloseTag else [c]) else [c])
      ++ brGo inQ' (c == bsl) rest

/-- `Formatter.apply_bracket_template_tags` (whole line list; comment
lines are passed through unscanned). -/
def apply_bracket_template_tags (lines : List Str) : List Str :=
  lines.map (fun line => if startsWith ['#'] line then line else brGo false false line)

/-- `Formatter.strip_bracket_template_tags`. -/
def strip_bracket_template_tags (content : Str) : Str :=
  replaceSubstr (replaceSubstr content brOpenTag [obr]) brCloseTag [cbr]

/-- `re.split(r"([{}])", line)`: split on every single brace, keeping the
braces as their own pieces (and keeping empty pieces, as `re.split`
does). -/
def splitKeepBraces : Str → List Str
  | [] => [[]]
  | c :: rest =>
    if c = obr ∨ c = cbr then [] :: [c] :: splitKeepBraces rest
    else
      match splitKeepBraces rest with
      | [] => [[c]]
      | h :: t => (c :: h) :: t

/-- The literal keyword `rewrite`. -/
def rewriteKw : Str := "rewrite".data

/-- One line of `Formatter.clean_lines`, with explicit fuel for the
nested self-recursion on split fragments (the source recursion
terminates because every fragment is strictly shorter than the line it
came from; see the termination theorems below).  When the fuel is
exhausted the line is emitted unsplit; `clean_lines` supplies enough
fuel that this never happens.  The loop body of `clean_lines` appends
each line's result, so the whole loop is the concatenation of the
per-line results.  `clean_line_core` is the loop body for one line,
abstracted over the recursive call (`none` when the fuel is gone). -/
def clean_line_core (rec : Option (Str → List Str)) (orig : Str) : List Str :=
  let line := apply_variable_template_tags (strip_line orig)
  if line = [] then [[]]
  else if startsWith ['#'] line then [strip_variable_template_tags line]
  else
    let qc := count_multi_semicolon line
    if qc.1 = 1 ∧ qc.2 > 1 then
      match rec with
      | none => [line]
      | some f => ((splitlines (multi_semicolon line)).map f).flatten
    else if qc.1 ≠ 1 ∧ qc.2 > 1 then
      match rec with
      | none => [line]
      | some f =>
        ((((splitOnChar ';' line).filter (fun ln => ln ≠ [])).map
          (fun ln => ln ++ [';'])).map f).flatten
    else if startsWith rewriteKw line then [strip_variable_template_tags line]
    else
      ((splitKeepBraces line).filter (fun ln => ln ≠ [])).map
        (fun ln => pyStrip (strip_variable_template_tags ln))

/-- One line of `clean_lines`, with the fuel argument driving the nested
self-recursion. -/
def clean_line : Nat → Str → List Str
  | 0, orig => clean_line_core none orig
  | fuel + 1, orig => clean_line_core (some (fun fr => clean_line fuel fr)) orig

/-- Total length of a line list, used to bound the recursion depth of
`clean_lines`. -/
def totalLen (lines : List Str) : Nat := (lines.map List.length).sum

/-- `Formatter.clean_lines`. -/
def clean_lines (orig_lines : List Str) : List Str :=
  (orig_lines.map (fun l => clean_line (totalLen orig_lines + 1) l)).flatten

/-- Loop of `Formatter._join_opening_bracket`; the accumulator holds the
already-emitted lines in reverse order. -/
def joinGo (acc : List Str) : List Str → List Str
  | [] => acc.reverse
  | l :: rest =>
    match acc with
    | a :: tl => if l = [obr] then joinGo ((a ++ ' ' :: [obr]) :: tl) rest
                 else joinGo (l :: a :: tl) rest
    | [] => joinGo [l] rest

/-- `Formatter._join_opening_bracket`. -/
def _join_opening_bracket (lines : List Str) : List Str := joinGo [] lines

/-- The conditional decrement at the top of the loop body of
`_perform_indentation` (a line that is not a comment and ends with `}`
dedents itself, but only when the counter is positive). -/
def indentDec (current : Int) (line : Str) : Int :=
  if ¬ startsWith ['#'] line ∧ endsWithChar cbr line ∧ current > 0 then current - 1
  else current

/-- The conditional increment at the bottom of the loop body of
`_perform_indentation` (a non-comment line ending with `{` indents what
follows). -/
def indentInc (current : Int) (line : Str) : Int :=
  if ¬ startsWith ['#'] line ∧ endsWithChar obr line then current + 1 else current

/-- Loop of `Formatter._perform_indentation`; the counter is a signed
integer exactly as in Python. -/
def indentGo (ind : Nat) (current : Int) : List Str → List Str
  | [] => []
  | line :: rest =>
    let current1 := indentDec current line
    (if line ≠ [] then List.replicate (current1.toNat * ind) ' ' ++ line else [])
      :: indentGo ind (indentInc current1 line) rest

/-- `Formatter._perform_indentation`. -/
def _perform_indentation (ind : Nat) (lines : List Str) : List Str :=
  indentGo ind 0 lines

/-- `re.sub(r'\n{3,}', '\n\n\n', text, re.MULTILINE)`: the source passes
`re.MULTILINE` (= 8) in the positional `count` slot, so only the first 8
runs of 3-or-more newlines are replaced, each by exactly three
newlines. -/
def squashGo : Nat → Nat → Str → Str
  | _, _, [] => []
  | 0, _, s => s
  | fuel + 1, budget, c :: rest =>
    if c = '\n' ∧ rest.take 2 = ['\n', '\n'] then
      match budget with
      | 0 => c :: rest
      | b + 1 =>
        '\n' :: '\n' :: '\n' ::
          squashGo fuel b ((rest.drop 2).dropWhile (fun x => x = '\n'))
    else c :: squashGo fuel budget rest

/-- The first of the three final substitutions of `format_string`. -/
def squashNewlineRuns (s : Str) : Str := squashGo s.length 8 s

/-- `re.sub(r'^\n', '', text, re.MULTILINE)`: without the (mispassed)
`MULTILINE` flag, `^` anchors only at the start, so at most one leading
newline is removed. -/
def stripLeadingNewline (s : Str) : Str :=
  match s with
  | c :: rest => if c = '\n' then rest else c :: rest
  | [] => []

/-- `re.sub(r'\n$', '', text, re.MULTILINE)`: `$` matches at the end and
just before a final newline, so the scan removes the last newline and
also a newline immediately preceding it — i.e. up to two trailing
newlines. -/
def stripTrailingNewlines (s : Str) : Str :=
  match s.reverse with
  | c1 :: c2 :: r =>
    if c1 = '\n' then (if c2 = '\n' then r.reverse else (c2 :: r).reverse) else s
  | [c1] => if c1 = '\n' then [] else s
  | [] => s

/-- `FormatterOptions` (only `indentation` exists). -/
structure FormatterOptions where
  indentation : Nat := 4

/-- `Formatter.format_string`: the full pipeline. -/
def format_string (opts : FormatterOptions) (contents : Str) : Str :=
  let lines0 := splitlines contents
  let lines1 := apply_bracket_template_tags lines0
  let lines2 := clean_lines lines1
  let lines3 := _join_opening_bracket lines2
  let lines4 := _perform_indentation opts.indentation lines3
  let text0 := joinChar '\n' lines4
  let text1 := strip_bracket_template_tags text0
  let text2 := squashNewlineRuns text1
  let text3 := stripLeadingNewline text2
  let text4 := stripTrailingNewlines text3
  text4 ++ ['\n']

/-! ### Definitions used to state the claims -/

/-- Quoted-literal extraction, following the claim wording for quoted
literals: the text between matching, non-escaped quote characters
(single or double); an unterminated quote yields no literal.  The state
carries the opening quote together with the content collected so far (in
reverse). -/
def quotedLiteralsGo : Option (Char × Str) → Bool → Str → List Str
  | _, _, [] => []
  | some (qc, acc), prevBS, c :: rest =>
    if c = qc ∧ prevBS = false then
      acc.reverse :: quotedLiteralsGo none (c == bsl) rest
    else quotedLiteralsGo (some (qc, c :: acc)) (c == bsl) rest
  | none, prevBS, c :: rest =>
    if (c = '"' ∨ c = sqc) ∧ prevBS = false then
      quotedLiteralsGo (some (c, [])) (c == bsl) rest
    else quotedLiteralsGo none (c == bsl) rest

/-- All quoted literals of a string. -/
def quotedLiterals (s : Str) : List Str := quotedLiteralsGo none false s

/-- Number of occurrences of `target` outside quotes in one line, with
the same quote discipline as the bracket tagger: the quote state toggles
on every `'` or `"` not preceded by a backslash. -/
def luGo (target : Char) (inQ prevBS : Bool) : Str → Nat
  | [] => 0
  | c :: rest =>
    let inQ' := if (c = '"' ∨ c = sqc) ∧ prevBS = false then !inQ else inQ
    (if inQ' = false ∧ c = target then 1 else 0) + luGo target inQ' (c == bsl) rest

/-- Count of unquoted occurrences of `target` in a whole document (quote
state is tracked per line and does not carry across lines). -/
def docUnquoted (target : Char) (s : Str) : Nat :=
  ((splitlines s).map (luGo target false false)).sum

/-- The splitting the claim about the `q == 1 and c > 1` branch
describes: a newline inserted after every semicolon everywhere on the
line, including inside quoted segments. -/
def claimEverySemi (s : Str) : Str := repSemi s

/-- The amended description of the `q == 1 and c > 1` branch: a single
left-to-right scan that toggles a quote flag on every `"` and inserts a
newline only after the semicolons outside quotes, leaving quoted
segments verbatim. -/
def amGo (inQ : Bool) : Str → Str
  | [] => []
  | c :: rest =>
    if c = '"' then c :: amGo (!inQ) rest
    else if c = ';' ∧ inQ = false then ';' :: '\n' :: amGo inQ rest
    else c :: amGo inQ rest

/-- Amended multi-semicolon splitting (claim C5): strip, keep comments,
otherwise insert newlines after unquoted semicolons only. -/
def amendedMultiSemi (l : Str) : Str :=
  let s := pyStrip l
  if startsWith ['#'] s then s else amGo false s

/-- Emission-time counters of `_perform_indentation`: the value of the
counter used to build each line's indentation prefix. -/
def indentEmits (current : Int) : List Str → List Int
  | [] => []
  | line :: rest =>
    indentDec current line :: indentEmits (indentInc (indentDec current line) line) rest

/-- Counter states of `_perform_indentation`: the value before each line
is processed, and the final value. -/
def indentStates (current : Int) : List Str → List Int
  | [] => [current]
  | line :: rest => current :: indentStates (indentInc (indentDec current line) line) rest

/-- The default formatter options (`indentation = 4`). -/
def defaultOpts : FormatterOptions := FormatterOptions.mk 4

/-- Sum of the semicolon counts of the parts at even positions (the
parts outside quotes), mirroring the `c` accumulator of
`_count_multi_semicolon`. -/
def altSemiSum : Bool → List Str → Nat
  | _, [] => 0
  | w, p :: ps => (if w then 0 else countChar ';' p) + altSemiSum (!w) ps

/-- Every newline in the string is immediately preceded by a semicolon
(the shape of the output of `multi_semicolon` on a break-free line). -/
def okPairs : Str → Bool
  | [] => true
  | [_] => true
  | a :: b :: r => ((b != '\n') || (a == ';')) && okPairs (b :: r)

/-- Characters that cannot interact with the quote or template-tag
machinery: not a double quote, not a single quote, not `$`, not `_`. -/
def plainChar (c : Char) : Bool :=
  !(c == '"') && !(c == sqc) && !(c == '$') && !(c == '_')

/-! ### Theorems for the claims -/

/-- C1: on the scenario input `server{listen 80;server_name a.com;}` with
indentation 4, `format_string` does NOT return the four-line document the
claim states: the `c > 1` split appends a semicolon to the final `}`
fragment, which is then split into a `}` line and a stray `;` line, so
the actual output has a fifth line `;` after the closing brace.  This
theorem evaluates the pipeline at the failing input: the first conjunct
is the actual output, the second states that it differs from the output
the claim requires. -/
theorem C1_scenario_actual_output :
    format_string defaultOpts (("server\x7blisten 80;server_name a.com;\x7d").data) =
      ("server \x7b\n    listen 80;\n    server_name a.com;\n\x7d\n;\n").data ∧
    ("server \x7b\n    listen 80;\n    server_name a.com;\n\x7d\n;\n").data ≠
      ("server \x7b\n    listen 80;\n    server_name a.com;\n\x7d\n").data := by
  exact ⟨by decide, by decide⟩

/-- C2 (counterexample): the output of `format_string` can end with two
newline characters and can contain a run of three newlines.  On the
input `a\n\n\nb\n\n\n\n` the run of three newlines survives (the source
collapses runs of 3+ to three newlines, not two) and the output ends
with two newlines (the trailing-strip removes at most the last two
newlines of a three-newline trailing run, and one newline is appended),
refuting both conjuncts of the claim. -/
theorem C2_counterexample :
    format_string defaultOpts (("a\n\n\nb\n\n\n\n").data) = ("a\n\n\nb\n\n").data ∧
    ¬ (∀ s : Str, (format_string defaultOpts s).getLast? = some '\n' ∧
        ((format_string defaultOpts s).drop ((format_string defaultOpts s).length - 2) ≠
          ['\n', '\n']) ∧
        ¬ (['\n', '\n', '\n'] <:+: format_string defaultOpts s)) := by
  refine ⟨by decide, fun h => ?_⟩
  have h2 := h (("a\n\n\nb\n\n\n\n").data)
  revert h2
  decide

/-- C2 (amended): for every input string and every option value, the
result of `format_string` ends with at least one newline character (a
newline is unconditionally appended); ending with exactly one newline
and containing no 3-newline run both fail, as the counterexample
shows. -/
theorem C2_amended_ends_with_newline (opts : FormatterOptions) (s : Str) :
    (format_string opts s).getLast? = some '\n' := by
  show (_ ++ ['\n']).getLast? = some '\n'
  simp

/-- C3 (counterexample): quoted-literal content is not always preserved.
The single-quoted literal `a  b` of the input `x 'a  b';` contains a
double space, which the line cleaner collapses (whitespace is only
protected between double quotes), so the literal does not occur in the
output. -/
theorem C3_counterexample :
    ("a  b").data ∈ quotedLiterals (("x ").data ++ sqc :: ("a  b").data ++ sqc :: (";").data) ∧
    ¬ (("a  b").data <:+:
        format_string defaultOpts (("x ").data ++ sqc :: ("a  b").data ++ sqc :: (";").data)) := by
  exact ⟨by decide, by decide⟩

/-- C3 (amended): byte-for-byte preservation of quoted-literal content
does not hold in general — whitespace inside single-quoted literals is
collapsed (see the counterexample), and even double-quoted content is
rewritten when it spells a template-sentinel string — but it does hold
on the spec's own double-quoted scenario: on the input
`add_header X-Test "{  literal  }";` the output is the input line
unchanged plus the final newline, and the quoted content, with its
internal whitespace run and both braces, occurs byte-for-byte as a
contiguous substring of the output. -/
theorem C3_amended_double_quoted_preserved :
    format_string defaultOpts (("add_header X-Test \"\x7b  literal  \x7d\";").data) =
      ("add_header X-Test \"\x7b  literal  \x7d\";").data ++ ['\n'] ∧
    ("\x7b  literal  \x7d").data <:+:
      format_string defaultOpts (("add_header X-Test \"\x7b  literal  \x7d\";").data) := by
  exact ⟨by decide, by decide⟩

/-- C4 (counterexample): `format_string` is not idempotent.  On the
input `a\n\n\n\n` the first pass returns `a\n\n` (trailing squash leaves
one newline of the run, then one newline is appended) while the second
pass returns `a\n`. -/
theorem C4_counterexample :
    format_string defaultOpts (format_string defaultOpts (("a\n\n\n\n").data)) ≠
      format_string defaultOpts (("a\n\n\n\n").data) := by decide

/-- C4 (amended): idempotence fails in general — a second pass
renormalizes blank-line runs and trailing newlines differently (see the
counterexample) — but it holds on the spec's scenario configuration:
applying `format_string` twice to `server{listen 80;server_name a.com;}`
gives the same result as applying it once. -/
theorem C4_amended_idempotent_on_scenario :
    format_string defaultOpts
        (format_string defaultOpts (("server\x7blisten 80;server_name a.com;\x7d").data)) =
      format_string defaultOpts (("server\x7blisten 80;server_name a.com;\x7d").data) := by
  decide

/-- C5 (counterexample): in the `q == 1 and c > 1` branch the line is
NOT split after every semicolon everywhere: semicolons inside
double-quoted segments are left alone.  On `a "x;y" b; c;` (where
`q = 1`, `c = 2`) the cleaner yields the two statements `a "x;y" b;` and
`c;` — not the three fragments the claim's everywhere-substitution
would produce. -/
theorem C5_counterexample :
    count_multi_semicolon (("a \"x;y\" b; c;").data) = (1, 2) ∧
    clean_lines [("a \"x;y\" b; c;").data] ≠
      clean_lines (splitlines (claimEverySemi (("a \"x;y\" b; c;").data))) := by
  exact ⟨by decide, by decide⟩

/-- C6 (counterexample): a comment line is not reproduced with its
interior byte-for-byte unchanged: the variable-tag round trip normalizes
`${ foo }` to `${foo}` inside comments.  On the one-line document
`# ${ foo }` the output differs from the trimmed line plus newline. -/
theorem C6_counterexample :
    format_string defaultOpts (("# $\x7b foo \x7d").data) ≠
      pyStrip (("# $\x7b foo \x7d").data) ++ ['\n'] ∧
    format_string defaultOpts (("# $\x7b foo \x7d").data) =
      ("# $\x7bfoo\x7d").data ++ ['\n'] := by
  exact ⟨by decide, by decide⟩

/-- C7 (counterexample): the unquoted-brace count is not preserved.  In
the input line `a; 'b; {` the brace lies after an unmatched single
quote, so it is unquoted-count 0 on input; the multi-semicolon split
cuts the line inside the quoted region and the brace ends up on an
output line with no preceding quote, where it counts as unquoted. -/
theorem C7_counterexample :
    docUnquoted obr (("a; ").data ++ sqc :: ("b; \x7b").data) = 0 ∧
    docUnquoted obr (format_string defaultOpts (("a; ").data ++ sqc :: ("b; \x7b").data)) = 1 := by
  exact ⟨by decide, by decide⟩

/-- C10: the empty document canonicalizes to the single-character string
containing one newline, for every option value. -/
theorem C10_empty_document (opts : FormatterOptions) :
    format_string opts [] = ['\n'] := rfl
theorem indentDec_nonneg (cur : Int) (line : Str) (h : 0 ≤ cur) : 0 ≤ indentDec cur line := by
  unfold indentDec
  split
  · omega
  · exact h

theorem indentInc_ge (cur : Int) (line : Str) : cur ≤ indentInc cur line := by
  unfold indentInc
  split
  · omega
  · omega

theorem indentStates_nonneg (lines : List Str) :
    ∀ cur : Int, 0 ≤ cur → ∀ x ∈ indentStates cur lines, 0 ≤ x := by
  induction lines with
  | nil =>
    intro cur h x hx
    simp [indentStates] at hx
    omega
  | cons line rest ih =>
    intro cur h x hx
    simp only [indentStates, List.mem_cons] at hx
    rcases hx with rfl | hx
    · exact h
    · exact ih _ (le_trans (indentDec_nonneg cur line h) (indentInc_ge _ line)) x hx

theorem indentEmits_nonneg (lines : List Str) :
    ∀ cur : Int, 0 ≤ cur → ∀ x ∈ indentEmits cur lines, 0 ≤ x := by
  induction lines with
  | nil =>
    intro cur h x hx
    simp [indentEmits] at hx
  | cons line rest ih =>
    intro cur h x hx
    simp only [indentEmits, List.mem_cons] at hx
    rcases hx with rfl | hx
    · exact indentDec_nonneg cur line h
    · exact ih _ (le_trans (indentDec_nonneg cur line h) (indentInc_ge _ line)) x hx

theorem indentEmits_length (lines : List Str) :
    ∀ cur : Int, (indentEmits cur lines).length = lines.length := by
  induction lines with
  | nil => intro cur; rfl
  | cons line rest ih => intro cur; simp [indentEmits, ih]

theorem indentGo_eq_zip (ind : Nat) (lines : List Str) :
    ∀ cur : Int, indentGo ind cur lines =
      List.zipWith
        (fun line c => if line = [] then ([] : Str)
          else List.replicate (c.toNat * ind) ' ' ++ line)
        lines (indentEmits cur lines) := by
  induction lines with
  | nil => intro cur; rfl
  | cons line rest ih =>
    intro cur
    simp only [indentGo, indentEmits, List.zipWith_cons_cons, ih]
    congr 1
    by_cases h : line = []
    · simp [h]
    · simp [h]

/-- C9: throughout `_perform_indentation` the nesting counter is never
negative (all counter states and all emission-time counters are
nonnegative when the run starts at 0); every non-empty output line is
the input line prefixed with exactly `counter * indentation` spaces for
its emission-time counter (in particular a closing-brace line at depth 0
gets the empty prefix), and empty lines stay empty. -/
theorem C9_indenter_invariants (ind : Nat) (lines : List Str) :
    (∀ x ∈ indentStates 0 lines, 0 ≤ x) ∧
    (∀ x ∈ indentEmits 0 lines, 0 ≤ x) ∧
    (indentEmits 0 lines).length = lines.length ∧
    _perform_indentation ind lines =
      List.zipWith
        (fun line c => if line = [] then ([] : Str)
          else List.replicate (c.toNat * ind) ' ' ++ line)
        lines (indentEmits 0 lines) := by
  refine ⟨indentStates_nonneg lines 0 le_rfl, indentEmits_nonneg lines 0 le_rfl,
    indentEmits_length lines 0, ?_⟩
  exact indentGo_eq_zip ind lines 0
theorem splitOnChar_ne_nil (c : Char) (s : Str) : splitOnChar c s ≠ [] := by
  cases s with
  | nil => simp [splitOnChar]
  | cons x xs =>
    simp only [splitOnChar]
    split
    · simp
    · split
      · simp
      · simp

theorem mapAlt_eq_nil_iff (f : Str → Str) (w : Bool) (ps : List Str) :
    mapAlt f w ps = [] ↔ ps = [] := by
  cases ps <;> simp [mapAlt]

theorem repSemi_cons (c : Char) (s : Str) :
    repSemi (c :: s) = (if c = ';' then [';', '\n'] else [c]) ++ repSemi s := by
  simp [repSemi]

theorem repSemi_nil : repSemi [] = [] := rfl

theorem joinChar_cons (q : Char) (p : Str) (ps : List Str) :
    joinChar q (p :: ps) = p ++ (if ps = [] then [] else q :: joinChar q ps) := by
  cases ps with
  | nil => simp [joinChar]
  | cons x xs => simp [joinChar]

theorem joinChar_mapAlt_cons (q : Char) (f : Str → Str) (w : Bool) (p : Str) (ps : List Str) :
    joinChar q (mapAlt f w (p :: ps)) =
      (if w then p else f p) ++
        (if ps = [] then [] else q :: joinChar q (mapAlt f (!w) ps)) := by
  simp only [mapAlt, joinChar_cons, mapAlt_eq_nil_iff]

theorem amGo_eq_parts (s : Str) :
    ∀ w : Bool, amGo w s = joinChar '"' (mapAlt repSemi w (splitOnChar '"' s)) := by
  induction s with
  | nil =>
    intro w
    cases w <;> simp [amGo, splitOnChar, mapAlt, joinChar, repSemi]
  | cons c cs ih =>
    intro w
    by_cases hc : c = '"'
    · subst hc
      have key : splitOnChar '"' ('"' :: cs) = [] :: splitOnChar '"' cs := by
        simp [splitOnChar]
      rw [key, joinChar_mapAlt_cons, if_neg (splitOnChar_ne_nil '"' cs)]
      have lhs : amGo w ('"' :: cs) = '"' :: amGo (!w) cs := by
        simp [amGo]
      rw [lhs, ih (!w)]
      cases w <;> simp [repSemi_nil]
    · obtain ⟨h, t, hsplit⟩ : ∃ h t, splitOnChar '"' cs = h :: t := by
        cases hs : splitOnChar '"' cs with
        | nil => exact absurd hs (splitOnChar_ne_nil _ _)
        | cons h t => exact ⟨h, t, rfl⟩
      have key : splitOnChar '"' (c :: cs) = (c :: h) :: t := by
        simp only [splitOnChar, if_neg hc, hsplit]
      have ihw := ih w
      rw [hsplit, joinChar_mapAlt_cons] at ihw
      rw [key, joinChar_mapAlt_cons]
      cases w with
      | false =>
        by_cases hsemi : c = ';'
        · subst hsemi
          simp only [amGo, if_neg hc, if_pos (by exact ⟨rfl, rfl⟩ : (';' : Char) = ';' ∧ false = false),
            repSemi_cons, if_pos rfl, ihw]
          simp
        · have hcond : ¬ ((c = ';') ∧ (false = false)) := fun hh => hsemi hh.1
          simp only [amGo, if_neg hc, if_neg hcond, repSemi_cons, if_neg hsemi, ihw]
          simp [hsemi]
      | true =>
        have hcond : ¬ ((c = ';') ∧ (true = false)) := fun hh => Bool.noConfusion hh.2
        simp only [amGo, if_neg hc, if_neg hcond, ihw]
        simp

theorem multi_semicolon_eq_amended (l : Str) : multi_semicolon l = amendedMultiSemi l := by
  simp only [multi_semicolon, amendedMultiSemi]
  by_cases h : startsWith ['#'] (pyStrip l) = true
  · simp [h]
  · simp [h, amGo_eq_parts]

theorem startsWith_hash_shape (s : Str) (h : startsWith ['#'] s = true) :
    ∃ rest, s = '#' :: rest := by
  cases s with
  | nil => simp [startsWith, List.isPrefixOf] at h
  | cons x xs =>
    refine ⟨xs, ?_⟩
    simp only [startsWith, List.isPrefixOf, List.isPrefixOf_nil_left, Bool.and_true] at h
    have : '#' = x := by
      simpa using h
    rw [← this]

theorem pyStrip_startsWith_hash (s : Str) (h : startsWith ['#'] s = true) :
    startsWith ['#'] (pyStrip s) = true := by
  obtain ⟨rest, rfl⟩ := startsWith_hash_shape s h
  have hdrop : ('#' :: rest).dropWhile isPySpace = '#' :: rest := by
    rw [List.dropWhile_cons_of_neg (by decide)]
  unfold pyStrip
  rw [hdrop]
  have : ∃ zs, (('#' :: rest).reverse).dropWhile isPySpace = zs ++ ['#'] := by
    rw [List.reverse_cons, List.dropWhile_append]
    split
    · exact ⟨[], by rw [List.dropWhile_cons_of_neg (by decide)]; rfl⟩
    · exact ⟨List.dropWhile isPySpace rest.reverse, rfl⟩
  obtain ⟨zs, hz⟩ := this
  rw [hz, List.reverse_append]
  simp [startsWith, List.isPrefixOf]

theorem count_multi_semicolon_of_comment (line : Str) (h : startsWith ['#'] line = true) :
    count_multi_semicolon line = (0, 0) := by
  simp only [count_multi_semicolon]
  simp [pyStrip_startsWith_hash line h]

theorem count_multi_semicolon_nil : count_multi_semicolon [] = (0, 0) := rfl

/-- C5 (amended): in the `q == 1 and c > 1` branch the cleaner splits by
inserting a newline after every semicolon OUTSIDE double-quoted
segments only (quoted segments stay verbatim), then re-cleans each
resulting sub-line; `amendedMultiSemi` is an independent one-pass
statement of that splitting, and it coincides with the source's
`multi_semicolon`. -/
theorem C5_amended_unquoted_split (l : Str) (fuel : Nat)
    (h1 : (count_multi_semicolon (apply_variable_template_tags (strip_line l))).1 = 1)
    (h2 : 1 < (count_multi_semicolon (apply_variable_template_tags (strip_line l))).2) :
    clean_line (fuel + 1) l =
      ((splitlines (amendedMultiSemi (apply_variable_template_tags (strip_line l)))).map
        (fun fr => clean_line fuel fr)).flatten := by
  have hne : apply_variable_template_tags (strip_line l) ≠ [] := by
    intro hnil
    rw [hnil, count_multi_semicolon_nil] at h1
    exact absurd h1 (by decide)
  have hcomment : ¬ startsWith ['#'] (apply_variable_template_tags (strip_line l)) = true := by
    intro hcom
    rw [count_multi_semicolon_of_comment _ hcom] at h1
    exact absurd h1 (by decide)
  rw [← multi_semicolon_eq_amended]
  simp only [clean_line, clean_line_core]
  rw [if_neg hne, if_neg hcomment, if_pos ⟨h1, h2⟩]

/-- Witness for `C5_amended_unquoted_split` at the line `a "x;y" b; c;`
(where `q = 1` and `c = 2`) with fuel 20. -/
theorem C5_amended_witness :
    (count_multi_semicolon
      (apply_variable_template_tags (strip_line (("a \"x;y\" b; c;").data)))).1 = 1 ∧
    1 < (count_multi_semicolon
      (apply_variable_template_tags (strip_line (("a \"x;y\" b; c;").data)))).2 ∧
    clean_line 21 (("a \"x;y\" b; c;").data) =
      ((splitlines (amendedMultiSemi
          (apply_variable_template_tags (strip_line (("a \"x;y\" b; c;").data))))).map
        (fun fr => clean_line 20 fr)).flatten :=
  ⟨by decide, by decide,
    C5_amended_unquoted_split (("a \"x;y\" b; c;").data) 20 (by decide) (by decide)⟩
theorem pyStrip_subset (s : Str) : ∀ c ∈ pyStrip s, c ∈ s := by
  intro c hc
  unfold pyStrip at hc
  rw [List.mem_reverse] at hc
  have h1 := (List.dropWhile_sublist (l := (s.dropWhile isPySpace).reverse) isPySpace).mem hc
  rw [List.mem_reverse] at h1
  exact (List.dropWhile_sublist isPySpace).mem h1

theorem isPrefixOf_cons_false (p0 : Char) (pt : Str) (c : Char) (rest : Str) (h : c ≠ p0) :
    (p0 :: pt).isPrefixOf (c :: rest) = false := by
  simp only [List.isPrefixOf, Bool.and_eq_false_iff, beq_eq_false_iff_ne, ne_eq]
  exact Or.inl (fun hh => h hh.symm)

theorem brGo_id (s : Str) (h : ∀ c ∈ s, ¬(c = '"' ∨ c = sqc)) :
    ∀ pb : Bool, brGo false pb s = s := by
  induction s with
  | nil => intro pb; rfl
  | cons c rest ih =>
    intro pb
    have hc := h c (List.mem_cons_self c rest)
    simp only [brGo]
    rw [if_neg (show ¬((c = '"' ∨ c = sqc) ∧ pb = false) from fun hh => hc hh.1)]
    simp only [Bool.false_eq_true, if_false]
    rw [ih (fun x hx => h x (List.mem_cons_of_mem c hx)) (c == bsl)]
    rfl

theorem matchVarRef_none (c : Char) (rest : Str) (h : c ≠ '$') :
    matchVarRef (c :: rest) = none := by
  rw [matchVarRef.eq_def]
  split
  · rename_i heq
    rw [List.cons.injEq] at heq
    exact absurd heq.1 h
  · rfl

theorem applyVarGo_id (s : Str) (h : ∀ c ∈ s, c ≠ '$') :
    ∀ fuel, applyVarGo fuel s = s := by
  induction s with
  | nil => intro fuel; cases fuel <;> rfl
  | cons c rest ih =>
    intro fuel
    cases fuel with
    | zero => rfl
    | succ f =>
      simp only [applyVarGo, matchVarRef_none c rest (h c (List.mem_cons_self c rest))]
      rw [ih (fun x hx => h x (List.mem_cons_of_mem c hx)) f]

theorem matchStripVar_none (c : Char) (rest : Str) (h : c ≠ '_') :
    matchStripVar (c :: rest) = none := by
  have hv : varOpenTag = '_' :: ("__TEMPLATE_VARIABLE_OPENING_TAG___").data := rfl
  unfold matchStripVar
  rw [if_neg]
  rw [hv, isPrefixOf_cons_false _ _ _ _ h]
  exact Bool.false_ne_true

theorem stripVarGo_id (s : Str) (h : ∀ c ∈ s, c ≠ '_') :
    ∀ fuel, stripVarGo fuel s = s := by
  induction s with
  | nil => intro fuel; cases fuel <;> rfl
  | cons c rest ih =>
    intro fuel
    cases fuel with
    | zero => rfl
    | succ f =>
      simp only [stripVarGo, matchStripVar_none c rest (h c (List.mem_cons_self c rest))]
      rw [ih (fun x hx => h x (List.mem_cons_of_mem c hx)) f]

theorem replaceSubstrGo_id (p0 : Char) (pt repl s : Str) (h : ∀ c ∈ s, c ≠ p0) :
    ∀ fuel, replaceSubstrGo (p0 :: pt) repl fuel s = s := by
  induction s with
  | nil => intro fuel; cases fuel <;> rfl
  | cons c rest ih =>
    intro fuel
    cases fuel with
    | zero => rfl
    | succ f =>
      simp only [replaceSubstrGo,
        isPrefixOf_cons_false p0 pt c rest (h c (List.mem_cons_self c rest))]
      simp only [Bool.false_eq_true, if_false]
      rw [ih (fun x hx => h x (List.mem_cons_of_mem c hx)) f]

theorem squashGo_id (s : Str) (h : ∀ c ∈ s, c ≠ '\n') :
    ∀ fuel budget, squashGo fuel budget s = s := by
  induction s with
  | nil => intro fuel budget; cases fuel <;> rfl
  | cons c rest ih =>
    intro fuel budget
    cases fuel with
    | zero => rfl
    | succ f =>
      simp only [squashGo]
      rw [if_neg (show ¬(c = '\n' ∧ rest.take 2 = ['\n', '\n']) from
        fun hh => (h c (List.mem_cons_self c rest)) hh.1)]
      rw [ih (fun x hx => h x (List.mem_cons_of_mem c hx)) f budget]

theorem stripLeadingNewline_id (s : Str) (h : ∀ c ∈ s, c ≠ '\n') :
    stripLeadingNewline s = s := by
  cases s with
  | nil => rfl
  | cons c rest =>
    simp only [stripLeadingNewline]
    rw [if_neg (h c (List.mem_cons_self c rest))]

theorem stripTrailingNewlines_id (s : Str) (h : ∀ c ∈ s, c ≠ '\n') :
    stripTrailingNewlines s = s := by
  unfold stripTrailingNewlines
  split
  · rename_i c1 c2 r heq
    have hc1 : c1 ∈ s := by
      rw [← List.mem_reverse, heq]
      exact List.mem_cons_self _ _
    rw [if_neg (h c1 hc1)]
  · rename_i c1 heq
    have hc1 : c1 ∈ s := by
      rw [← List.mem_reverse, heq]
      exact List.mem_cons_self _ _
    rw [if_neg (h c1 hc1)]
  · rfl

theorem splitlines_cons (c : Char) (rest : Str) :
    splitlines (c :: rest) =
      if c = '\r' then
        (match rest with
         | c2 :: r2 => if c2 = '\n' then [] :: splitlines r2 else [] :: splitlines (c2 :: r2)
         | [] => [[]])
      else if isBreakChar c then [] :: splitlines rest
      else
        match splitlines rest with
        | [] => [[c]]
        | h :: t => (c :: h) :: t := by
  rw [splitlines.eq_def]
  rfl

theorem splitlines_single (l : Str) (hne : l ≠ []) (hb : ∀ c ∈ l, isBreakChar c = false) :
    splitlines l = [l] := by
  induction l with
  | nil => exact absurd rfl hne
  | cons c rest ih =>
    have hc := hb c (List.mem_cons_self c rest)
    have hcr : c ≠ '\r' := by
      intro hh
      rw [hh] at hc
      exact absurd hc (by decide)
    have hcb : ¬ isBreakChar c = true := by
      rw [hc]
      exact Bool.false_ne_true
    rw [splitlines_cons, if_neg hcr, if_neg hcb]
    cases rest with
    | nil => rfl
    | cons c2 r2 =>
      rw [ih (by simp) (fun x hx => hb x (List.mem_cons_of_mem c hx))]

/-- C6 (amended): a one-line document that is a comment (its trimmed
form starts with `#`) and contains no line breaks, no quote characters,
no `$` and no `_` is reproduced by `format_string` exactly as the
trimmed line followed by one newline.  (The exclusions are forced by the
counterexample: `${ word }` inside a comment is normalized to
`${word}`, and the sentinel round trips need `_`-free and quote-free
text.) -/
theorem C6_amended_comment_reproduced (opts : FormatterOptions) (l : Str)
    (hcomment : startsWith ['#'] (pyStrip l) = true)
    (hchars : ∀ c ∈ l, isBreakChar c = false ∧ ¬(c = '"' ∨ c = sqc) ∧ c ≠ '$' ∧ c ≠ '_') :
    format_string opts l = pyStrip l ++ ['\n'] := by
  have hlne : l ≠ [] := by
    intro hh
    rw [hh] at hcomment
    exact absurd hcomment (by decide)
  obtain ⟨rest0, hshape⟩ := startsWith_hash_shape _ hcomment
  have hp : ∀ c ∈ pyStrip l, isBreakChar c = false ∧ ¬(c = '"' ∨ c = sqc) ∧ c ≠ '$' ∧ c ≠ '_' :=
    fun c hc => hchars c (pyStrip_subset l c hc)
  have hpn : ∀ c ∈ pyStrip l, c ≠ '\n' := by
    intro c hc hh
    have := (hp c hc).1
    rw [hh] at this
    exact absurd this (by decide)
  have h1 : splitlines l = [l] :=
    splitlines_single l hlne (fun c hc => (hchars c hc).1)
  have h2 : apply_bracket_template_tags [l] = [l] := by
    simp only [apply_bracket_template_tags, List.map]
    by_cases hs : startsWith ['#'] l = true
    · rw [if_pos hs]
    · rw [if_neg hs, brGo_id l (fun c hc => (hchars c hc).2.1) false]
  have hstrip : strip_line l = pyStrip l := by
    simp only [strip_line]
    rw [if_pos hcomment]
  have hline : apply_variable_template_tags (strip_line l) = pyStrip l := by
    rw [hstrip]
    exact applyVarGo_id (pyStrip l) (fun c hc => (hp c hc).2.2.1) (pyStrip l).length
  have hsv : strip_variable_template_tags (pyStrip l) = pyStrip l :=
    stripVarGo_id (pyStrip l) (fun c hc => (hp c hc).2.2.2) (pyStrip l).length
  have hclean : ∀ rec, clean_line_core rec l = [pyStrip l] := by
    intro rec
    simp only [clean_line_core, hline]
    rw [if_neg (show ¬ pyStrip l = [] by rw [hshape]; simp), if_pos hcomment, hsv]
  have hclean2 : ∀ fuel, clean_line fuel l = [pyStrip l] := by
    intro fuel
    cases fuel with
    | zero => exact hclean none
    | succ f => exact hclean _
  have h3 : clean_lines [l] = [pyStrip l] := by
    simp [clean_lines, hclean2]
  have h4 : _join_opening_bracket [pyStrip l] = [pyStrip l] := by
    simp [_join_opening_bracket, joinGo]
  have h5 : _perform_indentation opts.indentation [pyStrip l] = [pyStrip l] := by
    have hd : indentDec 0 (pyStrip l) = 0 := by simp [indentDec, hcomment]
    have hi : indentInc 0 (pyStrip l) = 0 := by simp [indentInc, hcomment]
    simp only [_perform_indentation, indentGo, hd, hi]
    rw [if_pos (show pyStrip l ≠ [] by rw [hshape]; simp)]
    simp
  have h6 : joinChar '\n' [pyStrip l] = pyStrip l := by
    simp [joinChar]
  have h7 : strip_bracket_template_tags (pyStrip l) = pyStrip l := by
    have hb1 : brOpenTag = '_' :: ("__TEMPLATE_BRACKET_OPENING_TAG___").data := rfl
    have hb2 : brCloseTag = '_' :: ("__TEMPLATE_BRACKET_CLOSING_TAG___").data := rfl
    simp only [strip_bracket_template_tags, replaceSubstr, hb1, hb2]
    rw [replaceSubstrGo_id '_' _ _ _ (fun c hc => (hp c hc).2.2.2)]
    rw [replaceSubstrGo_id '_' _ _ _ (fun c hc => (hp c hc).2.2.2)]
  have h8 : squashGo (pyStrip l).length 8 (pyStrip l) = pyStrip l :=
    squashGo_id (pyStrip l) hpn (pyStrip l).length 8
  simp only [format_string, h1, h2, h3, h4, h5, h6, h7]
  simp only [squashNewlineRuns, h8]
  rw [stripLeadingNewline_id _ hpn, stripTrailingNewlines_id _ hpn]

/-- Witness for `C6_amended_comment_reproduced` on the comment line
`  # a comment` (with leading whitespace). -/
theorem C6_amended_witness :
    startsWith ['#'] (pyStrip (("  # a comment").data)) = true ∧
    format_string defaultOpts (("  # a comment").data) =
      pyStrip (("  # a comment").data) ++ ['\n'] :=
  ⟨by decide,
    C6_amended_comment_reproduced defaultOpts (("  # a comment").data) (by decide) (by decide)⟩
theorem pyStrip_sublist (s : Str) : List.Sublist (pyStrip s) s := by
  unfold pyStrip
  have h1 : List.Sublist ((s.dropWhile isPySpace).reverse.dropWhile isPySpace).reverse
      (s.dropWhile isPySpace).reverse.reverse :=
    (List.dropWhile_sublist isPySpace).reverse
  rw [List.reverse_reverse] at h1
  exact h1.trans (List.dropWhile_sublist isPySpace)

theorem pyStrip_length_le (s : Str) : (pyStrip s).length ≤ s.length :=
  (pyStrip_sublist s).length_le

theorem countChar_cons (x c : Char) (s : Str) :
    countChar x (c :: s) = (if c = x then 1 else 0) + countChar x s := by
  simp only [countChar, List.countP_cons]
  split
  · rename_i h
    rw [if_pos (by simpa using h)]
    omega
  · rename_i h
    rw [if_neg (by simpa using h)]
    omega

theorem countChar_le_length (x : Char) (s : Str) : countChar x s ≤ s.length :=
  List.countP_le_length _

theorem countChar_append (x : Char) (s t : Str) :
    countChar x (s ++ t) = countChar x s + countChar x t := by
  simp [countChar, List.countP_append]

theorem countChar_sublist (x : Char) (s t : Str) (h : List.Sublist s t) :
    countChar x s ≤ countChar x t :=
  h.countP_le _

theorem splitOnChar_cons_eq (ch : Char) (s : Str) :
    splitOnChar ch (ch :: s) = [] :: splitOnChar ch s := by
  simp [splitOnChar]

theorem splitOnChar_shape (ch : Char) (s : Str) :
    ∃ h t, splitOnChar ch s = h :: t := by
  cases hs : splitOnChar ch s with
  | nil => exact absurd hs (splitOnChar_ne_nil ch s)
  | cons h t => exact ⟨h, t, rfl⟩

theorem splitOnChar_cons_ne (ch c : Char) (s : Str) (hc : c ≠ ch) (h : Str) (t : List Str)
    (hs : splitOnChar ch s = h :: t) :
    splitOnChar ch (c :: s) = (c :: h) :: t := by
  simp only [splitOnChar, hs, if_neg hc]

theorem splitOnChar_piece_le (ch : Char) (s : Str) :
    ∀ p ∈ splitOnChar ch s, p.length + countChar ch s ≤ s.length := by
  induction s with
  | nil =>
    intro p hp
    simp [splitOnChar] at hp
    simp [hp, countChar]
  | cons c rest ih =>
    intro p hp
    by_cases hc : c = ch
    · subst hc
      rw [splitOnChar_cons_eq] at hp
      rw [countChar_cons, if_pos rfl]
      rcases List.mem_cons.mp hp with rfl | hp
      · simp
        have := countChar_le_length c rest
        omega
      · have := ih p hp
        simp only [List.length_cons]
        omega
    · obtain ⟨h, t, hs⟩ := splitOnChar_shape ch rest
      rw [splitOnChar_cons_ne ch c rest hc h t hs] at hp
      rw [countChar_cons, if_neg hc]
      rcases List.mem_cons.mp hp with rfl | hp
      · have := ih h (by rw [hs]; exact List.mem_cons_self _ _)
        simp only [List.length_cons]
        omega
      · have := ih p (by rw [hs]; exact List.mem_cons_of_mem _ hp)
        simp only [List.length_cons]
        omega

theorem splitOnChar_mem_subset (ch : Char) (s : Str) :
    ∀ p ∈ splitOnChar ch s, ∀ x ∈ p, x ∈ s := by
  induction s with
  | nil =>
    intro p hp x hx
    simp [splitOnChar] at hp
    rw [hp] at hx
    exact absurd hx (List.not_mem_nil x)
  | cons c rest ih =>
    intro p hp x hx
    by_cases hc : c = ch
    · subst hc
      rw [splitOnChar_cons_eq] at hp
      rcases List.mem_cons.mp hp with rfl | hp
      · exact absurd hx (List.not_mem_nil x)
      · exact List.mem_cons_of_mem c (ih p hp x hx)
    · obtain ⟨h, t, hs⟩ := splitOnChar_shape ch rest
      rw [splitOnChar_cons_ne ch c rest hc h t hs] at hp
      rcases List.mem_cons.mp hp with rfl | hp
      · rcases List.mem_cons.mp hx with rfl | hx
        · exact List.mem_cons_self x rest
        · exact List.mem_cons_of_mem c
            (ih h (by rw [hs]; exact List.mem_cons_self _ _) x hx)
      · exact List.mem_cons_of_mem c
          (ih p (by rw [hs]; exact List.mem_cons_of_mem _ hp) x hx)
theorem countMSGo_c (ps : List Str) :
    ∀ (w : Bool) (q c : Nat), (countMSGo w q c ps).2 = c + altSemiSum w ps := by
  induction ps with
  | nil => intro w q c; simp [countMSGo, altSemiSum]
  | cons p t ih =>
    intro w q c
    cases w with
    | false =>
      simp [countMSGo, altSemiSum, ih]
      try omega
    | true =>
      simp [countMSGo, altSemiSum, ih]
      try omega

theorem altSemiSum_le_sum (ps : List Str) :
    ∀ w, altSemiSum w ps ≤ ((ps.map (countChar ';')).sum) := by
  induction ps with
  | nil => intro w; simp [altSemiSum]
  | cons p t ih =>
    intro w
    cases w with
    | false =>
      have := ih true
      simp only [altSemiSum, List.map, List.sum_cons]
      simp only [Bool.not_false]
      simp
      omega
    | true =>
      have := ih false
      simp only [altSemiSum, List.map, List.sum_cons]
      simp only [Bool.not_true]
      simp
      omega

theorem splitOnChar_count_sum (ch x : Char) (hx : x ≠ ch) (s : Str) :
    ((splitOnChar ch s).map (countChar x)).sum = countChar x s := by
  induction s with
  | nil => simp [splitOnChar, countChar]
  | cons c rest ih =>
    by_cases hc : c = ch
    · subst hc
      rw [splitOnChar_cons_eq]
      simp only [List.map, List.sum_cons, ih, countChar_cons]
      rw [if_neg (fun hh => hx hh.symm)]
      simp [countChar]
    · obtain ⟨h, t, hs⟩ := splitOnChar_shape ch rest
      rw [splitOnChar_cons_ne ch c rest hc h t hs]
      rw [hs] at ih
      simp only [List.map, List.sum_cons, countChar_cons] at ih ⊢
      omega

theorem count_multi_semicolon_c_le (l : Str) :
    (count_multi_semicolon l).2 ≤ countChar ';' l := by
  simp only [count_multi_semicolon]
  by_cases hcom : startsWith ['#'] (pyStrip l) = true
  · simp [hcom]
  · simp only [hcom, if_false, Bool.false_eq_true]
    rw [countMSGo_c]
    have h1 := altSemiSum_le_sum (splitOnChar '"' (pyStrip l)) false
    rw [splitOnChar_count_sum '"' ';' (by decide) (pyStrip l)] at h1
    have h2 := countChar_sublist ';' (pyStrip l) l (pyStrip_sublist l)
    omega

theorem c8_branch2 (l : Str) (h2 : 1 < (count_multi_semicolon l).2) :
    ∀ f ∈ ((splitOnChar ';' l).filter (fun p => p ≠ [])).map (fun p => p ++ [';']),
      f.length < l.length := by
  intro f hf
  obtain ⟨p, hp, rfl⟩ := List.mem_map.mp hf
  have hp' : p ∈ splitOnChar ';' l := (List.mem_filter.mp hp).1
  have hlen := splitOnChar_piece_le ';' l p hp'
  have hcnt : 2 ≤ countChar ';' l := le_trans h2 (count_multi_semicolon_c_le l)
  simp only [List.length_append, List.length_cons, List.length_nil]
  omega
theorem okPairs_tail (a : Char) (z : Str) (h : okPairs (a :: z) = true) :
    okPairs z = true := by
  cases z with
  | nil => rfl
  | cons b r =>
    simp only [okPairs, Bool.and_eq_true] at h
    exact h.2

theorem okPairs_pair (a b : Char) (r : Str) (h : okPairs (a :: b :: r) = true) :
    b ≠ '\n' ∨ a = ';' := by
  simp only [okPairs, Bool.and_eq_true, Bool.or_eq_true, bne_iff_ne, beq_iff_eq] at h
  exact h.1

theorem okPairs_cons_of (a : Char) (z : Str) (hh : z.head? ≠ some '\n')
    (hz : okPairs z = true) : okPairs (a :: z) = true := by
  cases z with
  | nil => rfl
  | cons b r =>
    simp only [List.head?] at hh
    have hb : b ≠ '\n' := fun e => hh (by rw [e])
    simp only [okPairs, Bool.and_eq_true, Bool.or_eq_true, bne_iff_ne]
    exact ⟨Or.inl hb, hz⟩

theorem okPairs_of_no_nl (s : Str) (h : ∀ x ∈ s, x ≠ '\n') : okPairs s = true := by
  induction s with
  | nil => rfl
  | cons a z ih =>
    refine okPairs_cons_of a z ?_ (ih (fun x hx => h x (List.mem_cons_of_mem a hx)))
    cases z with
    | nil => simp
    | cons b r =>
      simp only [List.head?, ne_eq, Option.some.injEq]
      exact h b (List.mem_cons_of_mem a (List.mem_cons_self b r))

theorem okPairs_append (x : Str) :
    ∀ y : Str, okPairs x = true → okPairs y = true → y.head? ≠ some '\n' →
      okPairs (x ++ y) = true := by
  induction x with
  | nil => intro y _ hy _; simpa using hy
  | cons a x' ih =>
    intro y hx hy hyh
    cases x' with
    | nil =>
      exact okPairs_cons_of a y hyh hy
    | cons b r =>
      have hpair := okPairs_pair a b r hx
      have htail := ih y (okPairs_tail a (b :: r) hx) hy hyh
      simp only [List.cons_append] at htail ⊢
      simp only [okPairs, Bool.and_eq_true, Bool.or_eq_true, bne_iff_ne, beq_iff_eq]
      exact ⟨hpair, htail⟩

theorem repSemi_head_ne_nl (s : Str) (h : ∀ x ∈ s, x ≠ '\n') :
    (repSemi s).head? ≠ some '\n' := by
  cases s with
  | nil => simp [repSemi]
  | cons c s' =>
    rw [repSemi_cons]
    by_cases hc : c = ';'
    · simp [hc]
    · have := h c (List.mem_cons_self c s')
      simp [hc, this]

theorem okPairs_repSemi (s : Str) (h : ∀ x ∈ s, x ≠ '\n') :
    okPairs (repSemi s) = true := by
  induction s with
  | nil => rfl
  | cons c s' ih =>
    rw [repSemi_cons]
    have htail : ∀ x ∈ s', x ≠ '\n' := fun x hx => h x (List.mem_cons_of_mem c hx)
    refine okPairs_append _ _ ?_ (ih htail) (repSemi_head_ne_nl s' htail)
    by_cases hc : c = ';'
    · rw [if_pos hc]; decide
    · rw [if_neg hc]; rfl

theorem joinChar_head_ne_nl (q : Char) (hq : q ≠ '\n') (ps : List Str)
    (h : ∀ p ∈ ps, p.head? ≠ some '\n') : (joinChar q ps).head? ≠ some '\n' := by
  induction ps with
  | nil => simp [joinChar]
  | cons p ps' ih =>
    rw [joinChar_cons]
    by_cases hps : ps' = []
    · rw [if_pos hps]
      simpa using h p (List.mem_cons_self p ps')
    · rw [if_neg hps]
      cases p with
      | nil =>
        simpa using hq
      | cons c cr =>
        have := h (c :: cr) (List.mem_cons_self _ ps')
        simpa using this

theorem okPairs_joinChar (q : Char) (hq : q ≠ '\n') (ps : List Str)
    (h : ∀ p ∈ ps, okPairs p = true ∧ p.head? ≠ some '\n') :
    okPairs (joinChar q ps) = true := by
  induction ps with
  | nil => rfl
  | cons p ps' ih =>
    rw [joinChar_cons]
    by_cases hps : ps' = []
    · rw [if_pos hps]
      simpa using (h p (List.mem_cons_self p ps')).1
    · rw [if_neg hps]
      have hrest : okPairs (q :: joinChar q ps') = true := by
        exact okPairs_cons_of q _
          (joinChar_head_ne_nl q hq ps' (fun p' hp' => (h p' (List.mem_cons_of_mem p hp')).2))
          (ih (fun p' hp' => h p' (List.mem_cons_of_mem p hp')))
      exact okPairs_append p _ (h p (List.mem_cons_self p ps')).1 hrest (by simpa using hq)

theorem mapAlt_mem (f : Str → Str) (ps : List Str) :
    ∀ (w : Bool), ∀ pc ∈ mapAlt f w ps, ∃ p ∈ ps, pc = p ∨ pc = f p := by
  induction ps with
  | nil => intro w pc hpc; simp [mapAlt] at hpc
  | cons p t ih =>
    intro w pc hpc
    simp only [mapAlt, List.mem_cons] at hpc
    rcases hpc with rfl | hpc
    · refine ⟨p, List.mem_cons_self p t, ?_⟩
      cases w
      · simp
      · simp
    · obtain ⟨p', hp', hor⟩ := ih (!w) pc hpc
      exact ⟨p', List.mem_cons_of_mem p hp', hor⟩
theorem countChar_eq_zero (ch : Char) (s : Str) (h : ∀ x ∈ s, x ≠ ch) :
    countChar ch s = 0 := by
  induction s with
  | nil => rfl
  | cons c rest ih =>
    rw [countChar_cons, if_neg (h c (List.mem_cons_self c rest))]
    simpa using ih (fun x hx => h x (List.mem_cons_of_mem c hx))

theorem countChar_joinChar (q x : Char) (hx : x ≠ q) (ps : List Str) :
    countChar x (joinChar q ps) = ((ps.map (countChar x)).sum) := by
  induction ps with
  | nil => simp [joinChar, countChar]
  | cons p ps' ih =>
    rw [joinChar_cons]
    by_cases hps : ps' = []
    · subst hps
      simp [countChar]
    · rw [if_neg hps, countChar_append, countChar_cons,
        if_neg (show ¬ q = x from fun hh => hx hh.symm), ih]
      simp

theorem countChar_nl_repSemi (s : Str) (h : ∀ x ∈ s, x ≠ '\n') :
    countChar '\n' (repSemi s) = countChar ';' s := by
  induction s with
  | nil => rfl
  | cons c rest ih =>
    rw [repSemi_cons, countChar_append, countChar_cons,
      ih (fun x hx => h x (List.mem_cons_of_mem c hx))]
    by_cases hc : c = ';'
    · rw [if_pos hc, if_pos hc]
      rfl
    · rw [if_neg hc, if_neg hc]
      have := h c (List.mem_cons_self c rest)
      simp [countChar, this]

theorem mapAlt_count_nl (ps : List Str) (h : ∀ p ∈ ps, ∀ x ∈ p, x ≠ '\n') :
    ∀ w, (((mapAlt repSemi w ps).map (countChar '\n')).sum) = altSemiSum w ps := by
  induction ps with
  | nil => intro w; rfl
  | cons p t ih =>
    intro w
    have hp := h p (List.mem_cons_self p t)
    have ht := fun p' hp' => h p' (List.mem_cons_of_mem p hp')
    cases w with
    | false =>
      simp only [mapAlt, altSemiSum, List.map, List.sum_cons, ih ht]
      rw [if_neg (by simp), if_neg (by simp), countChar_nl_repSemi p hp]
    | true =>
      simp only [mapAlt, altSemiSum, List.map, List.sum_cons, ih ht]
      simp [countChar_eq_zero '\n' p hp]

theorem repSemi_length (s : Str) : (repSemi s).length = s.length + countChar ';' s := by
  induction s with
  | nil => rfl
  | cons c rest ih =>
    rw [repSemi_cons, List.length_append, ih, countChar_cons]
    by_cases hc : c = ';'
    · rw [if_pos hc, if_pos hc]
      simp [List.length_cons]
      omega
    · rw [if_neg hc, if_neg hc]
      simp [List.length_cons]
      omega

theorem joinChar_mapAlt_length (q : Char) (ps : List Str) :
    ∀ w, (joinChar q (mapAlt repSemi w ps)).length =
      (joinChar q ps).length + altSemiSum w ps := by
  induction ps with
  | nil => intro w; rfl
  | cons p t ih =>
    intro w
    simp only [mapAlt, joinChar_cons, mapAlt_eq_nil_iff]
    by_cases ht : t = []
    · subst ht
      simp only [if_pos rfl, altSemiSum]
      cases w with
      | false => simp [repSemi_length]
      | true => simp [altSemiSum]
    · rw [if_neg ht, if_neg ht]
      simp only [List.length_append, List.length_cons, ih (!w), altSemiSum]
      cases w with
      | false => simp [repSemi_length]; omega
      | true => simp; omega

theorem joinChar_splitOnChar (ch : Char) (s : Str) :
    joinChar ch (splitOnChar ch s) = s := by
  induction s with
  | nil => rfl
  | cons c rest ih =>
    by_cases hc : c = ch
    · subst hc
      rw [splitOnChar_cons_eq, joinChar_cons, if_neg (splitOnChar_ne_nil c rest), ih]
      rfl
    · obtain ⟨h, t, hs⟩ := splitOnChar_shape ch rest
      rw [splitOnChar_cons_ne ch c rest hc h t hs, joinChar_cons]
      rw [hs, joinChar_cons] at ih
      by_cases htn : t = []
      · rw [if_pos htn] at ih ⊢
        simpa using ih
      · rw [if_neg htn] at ih ⊢
        simpa using ih
theorem splitOnChar_nl_frag : ∀ (s : Str), okPairs s = true → s.head? ≠ some '\n' →
    2 ≤ countChar '\n' s →
    ∀ f ∈ splitOnChar '\n' s, f.length + countChar '\n' s + 1 ≤ s.length := by
  intro s
  induction s with
  | nil => intro _ _ hcnt; exact absurd hcnt (by simp [countChar])
  | cons c s' ih =>
    intro hok hh hcnt f hf
    have hc : c ≠ '\n' := by
      intro e
      exact hh (by rw [e]; rfl)
    obtain ⟨h, t, hs⟩ := splitOnChar_shape '\n' s'
    rw [splitOnChar_cons_ne '\n' c s' hc h t hs] at hf
    have hcc : countChar '\n' (c :: s') = countChar '\n' s' := by
      rw [countChar_cons, if_neg hc]
      omega
    rw [hcc] at hcnt ⊢
    cases s' with
    | nil =>
      exact absurd hcnt (by simp [countChar])
    | cons d s'' =>
      by_cases hd : d = '\n'
      · subst hd
        have hceq : c = ';' := by
          rcases okPairs_pair c '\n' s'' hok with hne | he
          · exact absurd rfl hne
          · exact he
        rw [splitOnChar_cons_eq] at hs
        injection hs with h1 h2
        subst h1
        subst h2
        have hs''ne : s'' ≠ [] := by
          intro e
          rw [e] at hcnt
          exact absurd hcnt (by decide)
        obtain ⟨e, s''', rfl⟩ : ∃ e s''', s'' = e :: s''' := by
          cases s'' with
          | nil => exact absurd rfl hs''ne
          | cons e s''' => exact ⟨e, s''', rfl⟩
        have heok : okPairs ('\n' :: e :: s''') = true := okPairs_tail _ _ hok
        have hene : e ≠ '\n' := by
          rcases okPairs_pair '\n' e s''' heok with hne | habs
          · exact hne
          · exact absurd habs (by decide)
        have hA : countChar '\n' ('\n' :: e :: s''') = 1 + countChar '\n' s''' := by
          rw [countChar_cons, if_pos rfl, countChar_cons, if_neg hene]
          omega
        have hB : countChar '\n' s''' ≤ s'''.length := countChar_le_length '\n' s'''
        rcases List.mem_cons.mp hf with rfl | hf
        · rw [hA]
          simp only [List.length_cons, List.length_nil]
          omega
        · have hple := splitOnChar_piece_le '\n' (e :: s''') f hf
          have hC : countChar '\n' (e :: s''') = countChar '\n' s''' := by
            rw [countChar_cons, if_neg hene]
            omega
          rw [hC] at hple
          rw [hA]
          simp only [List.length_cons] at hple ⊢
          omega
      · have hh' : (d :: s'').head? ≠ some '\n' := by
          simp only [List.head?, ne_eq, Option.some.injEq]
          exact hd
        have hih := ih (okPairs_tail c _ hok) hh' hcnt
        rw [hs] at hih
        rcases List.mem_cons.mp hf with rfl | hf
        · have := hih h (List.mem_cons_self h t)
          simp only [List.length_cons] at this ⊢
          omega
        · have := hih f (List.mem_cons_of_mem h hf)
          simp only [List.length_cons] at this ⊢
          omega
theorem splitlines_ne_nil (c : Char) (rest : Str) : splitlines (c :: rest) ≠ [] := by
  rw [splitlines_cons]
  by_cases hr : c = '\r'
  · rw [if_pos hr]
    cases rest with
    | nil => simp
    | cons c2 r2 =>
      by_cases h2 : c2 = '\n'
      · simp [h2]
      · simp [h2]
  · rw [if_neg hr]
    by_cases hb : isBreakChar c = true
    · simp [hb]
    · simp only [hb, Bool.false_eq_true, if_false]
      cases hsp : splitlines rest with
      | nil => simp
      | cons h t => simp

theorem splitlines_nil_iff (s : Str) : splitlines s = [] ↔ s = [] := by
  cases s with
  | nil => simp [splitlines]
  | cons c rest =>
    constructor
    · intro h
      exact absurd h (splitlines_ne_nil c rest)
    · intro h
      exact absurd h (by simp)

theorem splitOnChar_nl_vs_splitlines (s : Str)
    (h : ∀ ch ∈ s, isBreakChar ch = true → ch = '\n') :
    splitOnChar '\n' s = splitlines s ∨ splitOnChar '\n' s = splitlines s ++ [[]] := by
  induction s with
  | nil => right; rfl
  | cons c rest ih =>
    have htail := ih (fun ch hch => h ch (List.mem_cons_of_mem c hch))
    by_cases hcn : c = '\n'
    · subst hcn
      rw [splitOnChar_cons_eq, splitlines_cons]
      rw [if_neg (by decide), if_pos (by decide)]
      rcases htail with heq | heq
      · left; rw [heq]
      · right; rw [heq]; rfl
    · have hcb : isBreakChar c = false := by
        cases hb : isBreakChar c with
        | false => rfl
        | true => exact absurd (h c (List.mem_cons_self c rest) hb) hcn
      have hcr : c ≠ '\r' := by
        intro e
        rw [e] at hcb
        exact absurd hcb (by decide)
      obtain ⟨h', t', hs⟩ := splitOnChar_shape '\n' rest
      rw [splitOnChar_cons_ne '\n' c rest hcn h' t' hs, splitlines_cons,
        if_neg hcr, if_neg (by rw [hcb]; exact Bool.false_ne_true)]
      cases hsl : splitlines rest with
      | nil =>
        have hrnil : rest = [] := (splitlines_nil_iff rest).mp hsl
        subst hrnil
        have hnil : splitOnChar '\n' ([] : Str) = [[]] := rfl
        rw [hnil] at hs
        have h12 := (List.cons.injEq _ _ _ _).mp hs
        left
        rw [← h12.1, ← h12.2]
      | cons hl tl =>
        rw [show (match hl :: tl with
            | [] => [[c]]
            | h :: t => (c :: h) :: t) = (c :: hl) :: tl from rfl]
        rcases htail with heq | heq
        · left
          have heq2 : hl :: tl = h' :: t' := by
            rw [← hsl, ← heq, hs]
          have h12 := (List.cons.injEq _ _ _ _).mp heq2
          rw [← h12.1, ← h12.2]
        · right
          have heq2 : hl :: (tl ++ [[]]) = h' :: t' := by
            rw [← hs, heq, hsl]
            rfl
          have h12 := (List.cons.injEq _ _ _ _).mp heq2
          rw [← h12.1, ← h12.2]
          rfl

theorem splitlines_mem_splitOnChar (s : Str)
    (h : ∀ ch ∈ s, isBreakChar ch = true → ch = '\n') :
    ∀ f ∈ splitlines s, f ∈ splitOnChar '\n' s := by
  intro f hf
  rcases splitOnChar_nl_vs_splitlines s h with heq | heq
  · rw [heq]; exact hf
  · rw [heq]; exact List.mem_append_left _ hf

theorem mem_joinChar (q : Char) (ps : List Str) (x : Char) :
    x ∈ joinChar q ps → x = q ∨ ∃ p ∈ ps, x ∈ p := by
  induction ps with
  | nil => intro hx; exact absurd hx (List.not_mem_nil x)
  | cons p ps' ih =>
    rw [joinChar_cons]
    by_cases hps : ps' = []
    · rw [if_pos hps]
      intro hx
      rw [List.append_nil] at hx
      exact Or.inr ⟨p, List.mem_cons_self p ps', hx⟩
    · rw [if_neg hps]
      intro hx
      rcases List.mem_append.mp hx with hx | hx
      · exact Or.inr ⟨p, List.mem_cons_self p ps', hx⟩
      · rcases List.mem_cons.mp hx with rfl | hx
        · exact Or.inl rfl
        · rcases ih hx with rfl | ⟨p', hp', hxp⟩
          · exact Or.inl rfl
          · exact Or.inr ⟨p', List.mem_cons_of_mem p hp', hxp⟩

theorem mem_repSemi (p : Str) (x : Char) : x ∈ repSemi p → x ∈ p ∨ x = '\n' := by
  induction p with
  | nil => intro hx; exact absurd hx (List.not_mem_nil x)
  | cons c rest ih =>
    intro hx
    rw [repSemi_cons] at hx
    rcases List.mem_append.mp hx with hx | hx
    · by_cases hc : c = ';'
      · rw [if_pos hc] at hx
        simp only [List.mem_cons, List.not_mem_nil, or_false] at hx
        rcases hx with h1 | h1
        · exact Or.inl (by rw [h1, hc]; exact List.mem_cons_self ';' rest)
        · exact Or.inr h1
      · rw [if_neg hc] at hx
        simp only [List.mem_cons, List.not_mem_nil, or_false] at hx
        exact Or.inl (by rw [hx]; exact List.mem_cons_self c rest)
    · rcases ih hx with hxp | h1
      · exact Or.inl (List.mem_cons_of_mem c hxp)
      · exact Or.inr h1
theorem c8_branch1 (l : Str) (hnb : ∀ ch ∈ l, isBreakChar ch = false)
    (h2 : 1 < (count_multi_semicolon l).2) :
    ∀ f ∈ splitlines (multi_semicolon l), f.length < l.length := by
  have hcom : ¬ startsWith ['#'] (pyStrip l) = true := by
    intro hc
    have hz : count_multi_semicolon l = (0, 0) := by
      simp [count_multi_semicolon, hc]
    rw [hz] at h2
    exact absurd h2 (by decide)
  have hml : multi_semicolon l =
      joinChar '"' (mapAlt repSemi false (splitOnChar '"' (pyStrip l))) := by
    simp [multi_semicolon, hcom]
  have hply : ∀ x ∈ pyStrip l, isBreakChar x = false :=
    fun x hx => hnb x (pyStrip_subset l x hx)
  have hpnl : ∀ p ∈ splitOnChar '"' (pyStrip l), ∀ x ∈ p, x ≠ '\n' := by
    intro p hp x hx hxe
    have hxx := hply x (splitOnChar_mem_subset '"' (pyStrip l) p hp x hx)
    rw [hxe] at hxx
    exact absurd hxx (by decide)
  have hpieces : ∀ pc ∈ mapAlt repSemi false (splitOnChar '"' (pyStrip l)),
      okPairs pc = true ∧ pc.head? ≠ some '\n' := by
    intro pc hpc
    obtain ⟨p, hp, hor⟩ := mapAlt_mem repSemi _ false pc hpc
    have hnlp := hpnl p hp
    rcases hor with rfl | rfl
    · refine ⟨okPairs_of_no_nl pc hnlp, ?_⟩
      cases pc with
      | nil => simp
      | cons c cr => simpa using hnlp c (List.mem_cons_self c cr)
    · exact ⟨okPairs_repSemi p hnlp, repSemi_head_ne_nl p hnlp⟩
  have hok : okPairs (multi_semicolon l) = true := by
    rw [hml]
    exact okPairs_joinChar '"' (by decide) _ hpieces
  have hhd : (multi_semicolon l).head? ≠ some '\n' := by
    rw [hml]
    exact joinChar_head_ne_nl '"' (by decide) _ (fun p hp => (hpieces p hp).2)
  have hc2 : (count_multi_semicolon l).2 =
      altSemiSum false (splitOnChar '"' (pyStrip l)) := by
    simp only [count_multi_semicolon, hcom, if_false, Bool.false_eq_true]
    rw [countMSGo_c]
    omega
  have hcnt : countChar '\n' (multi_semicolon l) =
      altSemiSum false (splitOnChar '"' (pyStrip l)) := by
    rw [hml, countChar_joinChar '"' '\n' (by decide)]
    exact mapAlt_count_nl _ hpnl false
  have hlen : (multi_semicolon l).length =
      (pyStrip l).length + altSemiSum false (splitOnChar '"' (pyStrip l)) := by
    rw [hml, joinChar_mapAlt_length, joinChar_splitOnChar]
  have hbr : ∀ ch ∈ multi_semicolon l, isBreakChar ch = true → ch = '\n' := by
    intro ch hch hb
    rw [hml] at hch
    rcases mem_joinChar '"' _ ch hch with rfl | ⟨pc, hpc, hchp⟩
    · exact absurd hb (by decide)
    · obtain ⟨p, hp, hor⟩ := mapAlt_mem repSemi _ false pc hpc
      rcases hor with rfl | rfl
      · have hxx := hply ch (splitOnChar_mem_subset '"' (pyStrip l) pc hp ch hchp)
        rw [hxx] at hb
        exact absurd hb (by simp)
      · rcases mem_repSemi p ch hchp with hin | heq
        · have hxx := hply ch (splitOnChar_mem_subset '"' (pyStrip l) p hp ch hin)
          rw [hxx] at hb
          exact absurd hb (by simp)
        · exact heq
  intro f hf
  have hf2 := splitlines_mem_splitOnChar _ hbr f hf
  have hcnt2 : 2 ≤ countChar '\n' (multi_semicolon l) := by
    rw [hcnt, ← hc2]
    exact h2
  have hfrag := splitOnChar_nl_frag (multi_semicolon l) hok hhd hcnt2 f hf2
  have hps := pyStrip_length_le l
  rw [hcnt, hlen] at hfrag
  omega

/-- C8: whenever `clean_lines` recurses, every fragment passed to the
recursive call is strictly shorter than the line it came from.  For a
line with no line-break characters (as produced by `splitlines`): in the
`q == 1 and c > 1` branch every line of `splitlines (multi_semicolon
line)` is strictly shorter, and in the `q != 1 and c > 1` branch every
re-assembled piece `p ++ ";"` is strictly shorter; `clean_line` (and
hence `clean_lines`) is a total Lean function. -/
theorem C8_fragments_shorter (l : Str) (hnb : ∀ ch ∈ l, isBreakChar ch = false) :
    ((count_multi_semicolon l).1 = 1 → 1 < (count_multi_semicolon l).2 →
      ∀ f ∈ splitlines (multi_semicolon l), f.length < l.length) ∧
    ((count_multi_semicolon l).1 ≠ 1 → 1 < (count_multi_semicolon l).2 →
      ∀ f ∈ ((splitOnChar ';' l).filter (fun p => p ≠ [])).map (fun p => p ++ [';']),
        f.length < l.length) :=
  ⟨fun _ h2 => c8_branch1 l hnb h2, fun _ h2 => c8_branch2 l h2⟩

/-- Witness for `C8_fragments_shorter` on the line `x 1;y "2;a";` (which
has `q = 1` and `c = 2`), with the hypothesis discharged by
evaluation. -/
theorem C8_witness :
    (∀ ch ∈ ("x 1;y \"2;a\";").data, isBreakChar ch = false) ∧
    (((count_multi_semicolon (("x 1;y \"2;a\";").data)).1 = 1 →
        1 < (count_multi_semicolon (("x 1;y \"2;a\";").data)).2 →
        ∀ f ∈ splitlines (multi_semicolon (("x 1;y \"2;a\";").data)),
          f.length < (("x 1;y \"2;a\";").data).length) ∧
      ((count_multi_semicolon (("x 1;y \"2;a\";").data)).1 ≠ 1 →
        1 < (count_multi_semicolon (("x 1;y \"2;a\";").data)).2 →
        ∀ f ∈ ((splitOnChar ';' (("x 1;y \"2;a\";").data)).filter
            (fun p => p ≠ [])).map (fun p => p ++ [';']),
          f.length < (("x 1;y \"2;a\";").data).length)) :=
  ⟨by decide, C8_fragments_shorter (("x 1;y \"2;a\";").data) (by decide)⟩
theorem countChar_reverse (tc : Char) (s : Str) : countChar tc s.reverse = countChar tc s := by
  induction s with
  | nil => rfl
  | cons c rest ih =>
    simp only [List.reverse_cons, countChar_append, countChar_cons, ih]
    simp [countChar]
    omega

theorem countChar_dropWhile_space (tc : Char) (htc : isPySpace tc = false) (s : Str) :
    countChar tc (s.dropWhile isPySpace) = countChar tc s := by
  induction s with
  | nil => rfl
  | cons c rest ih =>
    by_cases hc : isPySpace c = true
    · rw [List.dropWhile_cons_of_pos hc, ih, countChar_cons,
        if_neg (fun e => by rw [e] at hc; rw [hc] at htc; exact Bool.noConfusion htc)]
      omega
    · rw [List.dropWhile_cons_of_neg hc]

theorem countChar_pyStrip (tc : Char) (htc : isPySpace tc = false) (s : Str) :
    countChar tc (pyStrip s) = countChar tc s := by
  unfold pyStrip
  rw [countChar_reverse, countChar_dropWhile_space tc htc, countChar_reverse,
    countChar_dropWhile_space tc htc]

theorem countChar_replicate_space (tc : Char) (htc : tc ≠ ' ') (n : Nat) :
    countChar tc (List.replicate n ' ') = 0 := by
  induction n with
  | zero => rfl
  | succ m ih =>
    rw [List.replicate_succ, countChar_cons, if_neg (fun e => htc e.symm), ih]

theorem countChar_collapseWsGo (tc : Char) (htc : isPySpace tc = false) (s : Str) :
    ∀ flag, countChar tc (collapseWsGo flag s) = countChar tc s := by
  induction s with
  | nil => intro flag; rfl
  | cons c rest ih =>
    intro flag
    by_cases hc : isPySpace c = true
    · have hcne : ¬ c = tc := fun e => by rw [e] at hc; rw [hc] at htc; exact Bool.noConfusion htc
      simp only [collapseWsGo, if_pos hc]
      by_cases hflag : flag = true
      · rw [if_pos hflag, ih true, countChar_cons, if_neg hcne]
        omega
      · rw [if_neg hflag, countChar_cons, if_neg (show ¬ ' ' = tc from
          fun e => by rw [← e] at htc; exact Bool.noConfusion htc), ih true,
          countChar_cons, if_neg hcne]
    · simp only [collapseWsGo, if_neg hc]
      rw [countChar_cons, countChar_cons, ih false]

theorem mem_collapseWsGo (s : Str) :
    ∀ flag x, x ∈ collapseWsGo flag s → x ∈ s ∨ x = ' ' := by
  induction s with
  | nil => intro flag x hx; exact absurd hx (List.not_mem_nil x)
  | cons c rest ih =>
    intro flag x hx
    by_cases hc : isPySpace c = true
    · simp only [collapseWsGo, if_pos hc] at hx
      by_cases hflag : flag = true
      · rw [if_pos hflag] at hx
        rcases ih true x hx with hm | he
        · exact Or.inl (List.mem_cons_of_mem c hm)
        · exact Or.inr he
      · rw [if_neg hflag] at hx
        rcases List.mem_cons.mp hx with he | hx
        · exact Or.inr he
        · rcases ih true x hx with hm | he
          · exact Or.inl (List.mem_cons_of_mem c hm)
          · exact Or.inr he
    · simp only [collapseWsGo, if_neg hc] at hx
      rcases List.mem_cons.mp hx with he | hx
      · exact Or.inl (by rw [he]; exact List.mem_cons_self c rest)
      · rcases ih false x hx with hm | he
        · exact Or.inl (List.mem_cons_of_mem c hm)
        · exact Or.inr he

theorem splitKeepBraces_ne_nil (s : Str) : splitKeepBraces s ≠ [] := by
  cases s with
  | nil => simp [splitKeepBraces]
  | cons c rest =>
    simp only [splitKeepBraces]
    split
    · simp
    · split
      · simp
      · simp

theorem splitKeepBraces_shape (s : Str) : ∃ h t, splitKeepBraces s = h :: t := by
  cases hk : splitKeepBraces s with
  | nil => exact absurd hk (splitKeepBraces_ne_nil s)
  | cons h t => exact ⟨h, t, rfl⟩

theorem splitKeepBraces_sum (tc : Char) (s : Str) :
    ((splitKeepBraces s).map (countChar tc)).sum = countChar tc s := by
  induction s with
  | nil => simp [splitKeepBraces, countChar]
  | cons c rest ih =>
    by_cases hc : c = obr ∨ c = cbr
    · simp only [splitKeepBraces, if_pos hc, List.map, List.sum_cons, countChar_cons, ih]
      simp [countChar]
      try omega
    · simp only [splitKeepBraces, if_neg hc]
      obtain ⟨h, t, hs⟩ := splitKeepBraces_shape rest
      rw [hs]
      rw [hs] at ih
      simp only [List.map, List.sum_cons, countChar_cons] at ih ⊢
      omega

theorem splitKeepBraces_mem_subset (s : Str) :
    ∀ p ∈ splitKeepBraces s, ∀ x ∈ p, x ∈ s := by
  induction s with
  | nil =>
    intro p hp x hx
    simp [splitKeepBraces] at hp
    rw [hp] at hx
    exact absurd hx (List.not_mem_nil x)
  | cons c rest ih =>
    intro p hp x hx
    by_cases hc : c = obr ∨ c = cbr
    · simp only [splitKeepBraces, if_pos hc, List.mem_cons] at hp
      rcases hp with rfl | hp
      · exact absurd hx (List.not_mem_nil x)
      · rcases hp with rfl | hp
        · rcases List.mem_cons.mp hx with rfl | hx
          · exact List.mem_cons_self x rest
          · exact absurd hx (List.not_mem_nil x)
        · exact List.mem_cons_of_mem c (ih p hp x hx)
    · simp only [splitKeepBraces, if_neg hc] at hp
      rcases hk : splitKeepBraces rest with _ | ⟨h, t⟩
      · rw [hk] at hp
        simp only [List.mem_cons] at hp
        rcases hp with rfl | hp
        · rcases List.mem_cons.mp hx with rfl | hx
          · exact List.mem_cons_self x rest
          · exact absurd hx (List.not_mem_nil x)
        · exact absurd hp (List.not_mem_nil p)
      · rw [hk] at hp
        rcases List.mem_cons.mp hp with rfl | hp
        · rcases List.mem_cons.mp hx with rfl | hx
          · exact List.mem_cons_self x rest
          · exact List.mem_cons_of_mem c (ih h (by rw [hk]; exact List.mem_cons_self h t) x hx)
        · exact List.mem_cons_of_mem c (ih p (by rw [hk]; exact List.mem_cons_of_mem h hp) x hx)

theorem splitOnChar_single (ch : Char) (s : Str) (h : ∀ x ∈ s, x ≠ ch) :
    splitOnChar ch s = [s] := by
  induction s with
  | nil => rfl
  | cons c rest ih =>
    rw [splitOnChar_cons_ne ch c rest (h c (List.mem_cons_self c rest)) rest []
      (ih (fun x hx => h x (List.mem_cons_of_mem c hx)))]

theorem sum_filter_ne_nil (tc : Char) (ps : List Str) :
    (((ps.filter (fun p => p ≠ [])).map (countChar tc)).sum) =
      ((ps.map (countChar tc)).sum) := by
  induction ps with
  | nil => rfl
  | cons p t ih =>
    rw [List.filter_cons]
    by_cases hp : p = []
    · rw [if_neg (by simp [hp])]
      rw [List.map_cons, List.sum_cons, ih, hp]
      simp [countChar]
    · rw [if_pos (by simp [hp])]
      rw [List.map_cons, List.map_cons, List.sum_cons, List.sum_cons, ih]
theorem splitlines_cr_nil : splitlines ['\r'] = [[]] := by
  rw [splitlines_cons]
  decide

theorem splitlines_cr_cons (c2 : Char) (r2 : Str) :
    splitlines ('\r' :: c2 :: r2) =
      if c2 = '\n' then [] :: splitlines r2 else [] :: splitlines (c2 :: r2) := by
  rw [splitlines_cons]
  rw [if_pos rfl]
  try rfl

theorem splitlines_break (c : Char) (rest : Str) (hr : c ≠ '\r') (hb : isBreakChar c = true) :
    splitlines (c :: rest) = [] :: splitlines rest := by
  rw [splitlines_cons, if_neg hr, if_pos hb]

theorem splitlines_plain_cons (c : Char) (rest : Str) (hr : c ≠ '\r')
    (hb : isBreakChar c = false) (h : Str) (t : List Str) (hsp : splitlines rest = h :: t) :
    splitlines (c :: rest) = (c :: h) :: t := by
  rw [splitlines_cons, if_neg hr, if_neg (by rw [hb]; exact Bool.false_ne_true), hsp]

theorem splitlines_plain_nil (c : Char) (hr : c ≠ '\r') (hb : isBreakChar c = false) :
    splitlines [c] = [[c]] := by
  have : splitlines ([] : Str) = [] := rfl
  rw [splitlines_cons, if_neg hr, if_neg (by rw [hb]; exact Bool.false_ne_true), this]
theorem splitlines_sum_aux (tc : Char) (htc : isBreakChar tc = false) :
    ∀ (n : Nat) (s : Str), s.length ≤ n →
      ((splitlines s).map (countChar tc)).sum = countChar tc s := by
  intro n
  induction n with
  | zero =>
    intro s hs
    have : s = [] := List.eq_nil_of_length_eq_zero (Nat.le_zero.mp hs)
    subst this
    rfl
  | succ m ih =>
    intro s hs
    cases s with
    | nil => rfl
    | cons c rest =>
      have hlen : rest.length ≤ m := by
        simp only [List.length_cons] at hs
        omega
      by_cases hr : c = '\r'
      · subst hr
        have hcne : ¬ ('\r' : Char) = tc := by
          intro e
          rw [← e] at htc
          exact absurd htc (by decide)
        cases rest with
        | nil =>
          rw [splitlines_cr_nil]
          simp [countChar_cons, hcne, countChar]
        | cons c2 r2 =>
          rw [splitlines_cr_cons]
          have hlen2 : r2.length ≤ m := by
            simp only [List.length_cons] at hs
            omega
          by_cases h2 : c2 = '\n'
          · rw [if_pos h2]
            have h2ne : ¬ c2 = tc := by
              intro e
              rw [← e, h2] at htc
              exact absurd htc (by decide)
            rw [countChar_cons, countChar_cons, if_neg hcne, if_neg h2ne]
            simp only [List.map, List.sum_cons, ih r2 hlen2]
            have h0 : countChar tc ([] : Str) = 0 := rfl
            rw [h0]
            try omega
          · rw [if_neg h2]
            rw [countChar_cons, if_neg hcne]
            simp only [List.map, List.sum_cons, ih (c2 :: r2) hlen]
            have h0 : countChar tc ([] : Str) = 0 := rfl
            rw [h0]
            try omega
      · by_cases hb : isBreakChar c = true
        · rw [splitlines_break c rest hr hb]
          have hcne : ¬ c = tc := by
            intro e
            rw [e, htc] at hb
            exact Bool.noConfusion hb
          rw [countChar_cons, if_neg hcne]
          simp only [List.map, List.sum_cons, ih rest hlen]
          have h0 : countChar tc ([] : Str) = 0 := rfl
          rw [h0]
          try omega
        · have hb' : isBreakChar c = false := by
            cases hx : isBreakChar c with
            | false => rfl
            | true => exact absurd hx hb
          cases hsp : splitlines rest with
          | nil =>
            have hrn : rest = [] := (splitlines_nil_iff rest).mp hsp
            subst hrn
            rw [splitlines_plain_nil c hr hb']
            simp [countChar]
          | cons h t =>
            rw [splitlines_plain_cons c rest hr hb' h t hsp]
            have := ih rest hlen
            rw [hsp] at this
            simp only [List.map, List.sum_cons, countChar_cons] at this ⊢
            omega

theorem splitlines_sum (tc : Char) (htc : isBreakChar tc = false) (s : Str) :
    ((splitlines s).map (countChar tc)).sum = countChar tc s :=
  splitlines_sum_aux tc htc s.length s le_rfl

theorem splitlines_mem_subset_aux :
    ∀ (n : Nat) (s : Str), s.length ≤ n →
      ∀ f ∈ splitlines s, ∀ x ∈ f, x ∈ s := by
  intro n
  induction n with
  | zero =>
    intro s hs
    have : s = [] := List.eq_nil_of_length_eq_zero (Nat.le_zero.mp hs)
    subst this
    intro f hf
    exact absurd hf (List.not_mem_nil f)
  | succ m ih =>
    intro s hs
    cases s with
    | nil => intro f hf; exact absurd hf (List.not_mem_nil f)
    | cons c rest =>
      intro f hf x hx
      have hlen : rest.length ≤ m := by
        simp only [List.length_cons] at hs
        omega
      by_cases hr : c = '\r'
      · subst hr
        cases rest with
        | nil =>
          rw [splitlines_cr_nil] at hf
          simp only [List.mem_cons] at hf
          rcases hf with rfl | hf
          · exact absurd hx (List.not_mem_nil x)
          · exact absurd hf (List.not_mem_nil f)
        | cons c2 r2 =>
          rw [splitlines_cr_cons] at hf
          by_cases h2 : c2 = '\n'
          · rw [if_pos h2] at hf
            rcases List.mem_cons.mp hf with rfl | hf
            · exact absurd hx (List.not_mem_nil x)
            · have hlen2 : r2.length ≤ m := by
                simp only [List.length_cons] at hs
                omega
              exact List.mem_cons_of_mem _ (List.mem_cons_of_mem c2 (ih r2 hlen2 f hf x hx))
          · rw [if_neg h2] at hf
            rcases List.mem_cons.mp hf with rfl | hf
            · exact absurd hx (List.not_mem_nil x)
            · exact List.mem_cons_of_mem _ (ih (c2 :: r2) hlen f hf x hx)
      · by_cases hb : isBreakChar c = true
        · rw [splitlines_break c rest hr hb] at hf
          rcases List.mem_cons.mp hf with rfl | hf
          · exact absurd hx (List.not_mem_nil x)
          · exact List.mem_cons_of_mem c (ih rest hlen f hf x hx)
        · have hb' : isBreakChar c = false := by
            cases hxx : isBreakChar c with
            | false => rfl
            | true => exact absurd hxx hb
          cases hsp : splitlines rest with
          | nil =>
            have hrn : rest = [] := (splitlines_nil_iff rest).mp hsp
            subst hrn
            rw [splitlines_plain_nil c hr hb'] at hf
            rcases List.mem_cons.mp hf with rfl | hf
            · rcases List.mem_cons.mp hx with rfl | hx
              · exact List.mem_cons_self x []
              · exact absurd hx (List.not_mem_nil x)
            · exact absurd hf (List.not_mem_nil f)
          | cons h t =>
            rw [splitlines_plain_cons c rest hr hb' h t hsp] at hf
            rcases List.mem_cons.mp hf with rfl | hf
            · rcases List.mem_cons.mp hx with rfl | hx
              · exact List.mem_cons_self x rest
              · exact List.mem_cons_of_mem c
                  (ih rest hlen h (by rw [hsp]; exact List.mem_cons_self h t) x hx)
            · exact List.mem_cons_of_mem c
                (ih rest hlen f (by rw [hsp]; exact List.mem_cons_of_mem h hf) x hx)

theorem splitlines_mem_subset (s : Str) : ∀ f ∈ splitlines s, ∀ x ∈ f, x ∈ s :=
  splitlines_mem_subset_aux s.length s le_rfl
theorem strip_line_plain_eq (orig : Str) (hq : ∀ x ∈ orig, x ≠ '"') :
    strip_line orig =
      if startsWith ['#'] (pyStrip orig) = true then pyStrip orig
      else collapseWs (pyStrip orig) := by
  simp only [strip_line]
  by_cases hcom : startsWith ['#'] (pyStrip orig) = true
  · rw [if_pos hcom, if_pos hcom]
  · rw [if_neg hcom, if_neg hcom]
    rw [splitOnChar_single '"' (pyStrip orig) (fun x hx => hq x (pyStrip_subset orig x hx))]
    simp [mapAlt, joinChar]

theorem count_q_plain (l : Str) (hq : ∀ x ∈ l, x ≠ '"') :
    (count_multi_semicolon l).1 = 0 := by
  simp only [count_multi_semicolon]
  by_cases hcom : startsWith ['#'] (pyStrip l) = true
  · simp [hcom]
  · rw [if_neg hcom]
    rw [splitOnChar_single '"' (pyStrip l) (fun x hx => hq x (pyStrip_subset l x hx))]
    rfl

theorem sum_map_flatten (l : List Str) (f : Str → List Str) (h : Str → Nat) :
    (((l.map f).flatten).map h).sum = (l.map (fun a => ((f a).map h).sum)).sum := by
  induction l with
  | nil => rfl
  | cons a t ih =>
    simp only [List.map, List.flatten, List.map_append, List.sum_append, ih]
    simp

theorem plainChar_facts (c : Char) (h : plainChar c = true) :
    c ≠ '"' ∧ c ≠ sqc ∧ c ≠ '$' ∧ c ≠ '_' := by
  simp only [plainChar, Bool.and_eq_true, Bool.not_eq_true', beq_eq_false_iff_ne, ne_eq] at h
  exact ⟨h.1.1.1, h.1.1.2, h.1.2, h.2⟩

theorem plainChar_space : plainChar ' ' = true := by decide

theorem plainChar_semi : plainChar ';' = true := by decide

theorem applyVar_id_plain (s : Str) (h : ∀ x ∈ s, plainChar x = true) :
    apply_variable_template_tags s = s :=
  applyVarGo_id s (fun c hc => (plainChar_facts c (h c hc)).2.2.1) s.length

theorem stripVar_id_plain (s : Str) (h : ∀ x ∈ s, plainChar x = true) :
    strip_variable_template_tags s = s :=
  stripVarGo_id s (fun c hc => (plainChar_facts c (h c hc)).2.2.2) s.length
theorem map_congr_mem {α β : Type} (l : List α) (f g : α → β) (h : ∀ a ∈ l, f a = g a) :
    l.map f = l.map g := by
  induction l with
  | nil => rfl
  | cons a t ih =>
    simp only [List.map, h a (List.mem_cons_self a t),
      ih (fun a' ha' => h a' (List.mem_cons_of_mem a ha'))]

theorem sum_map_congr {α : Type} (l : List α) (f g : α → Nat) (h : ∀ a ∈ l, f a = g a) :
    (l.map f).sum = (l.map g).sum := by
  induction l with
  | nil => rfl
  | cons a t ih =>
    simp only [List.map, List.sum_cons, h a (List.mem_cons_self a t),
      ih (fun a' ha' => h a' (List.mem_cons_of_mem a ha'))]

theorem collapseWs_plain (s : Str) (h : ∀ x ∈ s, plainChar x = true) :
    ∀ x ∈ collapseWs s, plainChar x = true := by
  intro x hx
  rcases mem_collapseWsGo s false x hx with hm | he
  · exact h x hm
  · rw [he]; exact plainChar_space

theorem strip_line_plain_chars (orig : Str) (hpl : ∀ x ∈ orig, plainChar x = true) :
    ∀ x ∈ strip_line orig, plainChar x = true := by
  rw [strip_line_plain_eq orig (fun x hx => (plainChar_facts x (hpl x hx)).1)]
  by_cases hcom : startsWith ['#'] (pyStrip orig) = true
  · rw [if_pos hcom]
    exact fun x hx => hpl x (pyStrip_subset orig x hx)
  · rw [if_neg hcom]
    exact collapseWs_plain _ (fun x hx => hpl x (pyStrip_subset orig x hx))

theorem strip_line_plain_count (tc : Char) (htsp : isPySpace tc = false) (orig : Str)
    (hq : ∀ x ∈ orig, x ≠ '"') :
    countChar tc (strip_line orig) = countChar tc orig := by
  rw [strip_line_plain_eq orig hq]
  by_cases hcom : startsWith ['#'] (pyStrip orig) = true
  · rw [if_pos hcom, countChar_pyStrip tc htsp]
  · rw [if_neg hcom]
    unfold collapseWs
    rw [countChar_collapseWsGo tc htsp, countChar_pyStrip tc htsp]

theorem clean_line_core_plain (tc : Char) (htsp : isPySpace tc = false) (htsemi : tc ≠ ';')
    (rec : Option (Str → List Str))
    (hrec : ∀ f, rec = some f → ∀ fr, (∀ x ∈ fr, plainChar x = true) →
      ((((f fr).map (countChar tc)).sum = countChar tc fr) ∧
        ∀ ln ∈ f fr, ∀ x ∈ ln, plainChar x = true))
    (orig : Str) (hpl : ∀ x ∈ orig, plainChar x = true) :
    (((clean_line_core rec orig).map (countChar tc)).sum = countChar tc orig) ∧
    ∀ ln ∈ clean_line_core rec orig, ∀ x ∈ ln, plainChar x = true := by
  have hq : ∀ x ∈ orig, x ≠ '"' := fun x hx => (plainChar_facts x (hpl x hx)).1
  have hplL : ∀ x ∈ strip_line orig, plainChar x = true := strip_line_plain_chars orig hpl
  have hlineeq : apply_variable_template_tags (strip_line orig) = strip_line orig :=
    applyVar_id_plain _ hplL
  have hcntL : countChar tc (strip_line orig) = countChar tc orig :=
    strip_line_plain_count tc htsp orig hq
  simp only [clean_line_core, hlineeq]
  by_cases hnil : strip_line orig = []
  · rw [if_pos hnil]
    refine ⟨?_, ?_⟩
    · rw [← hcntL, hnil]
      rfl
    · intro ln hln x hx
      rcases List.mem_cons.mp hln with rfl | hln
      · exact absurd hx (List.not_mem_nil x)
      · exact absurd hln (List.not_mem_nil ln)
  · rw [if_neg hnil]
    by_cases hcom : startsWith ['#'] (strip_line orig) = true
    · rw [if_pos hcom, stripVar_id_plain _ hplL]
      refine ⟨?_, ?_⟩
      · simp only [List.map, List.sum_cons, List.sum_nil]
        have := hcntL
        omega
      · intro ln hln x hx
        rcases List.mem_cons.mp hln with rfl | hln
        · exact hplL x hx
        · exact absurd hln (List.not_mem_nil ln)
    · rw [if_neg hcom]
      have hq1 : (count_multi_semicolon (strip_line orig)).1 = 0 :=
        count_q_plain _ (fun x hx => (plainChar_facts x (hplL x hx)).1)
      rw [if_neg (show ¬ ((count_multi_semicolon (strip_line orig)).1 = 1 ∧
          (count_multi_semicolon (strip_line orig)).2 > 1) from
        fun hh => by rw [hq1] at hh; exact absurd hh.1 (by decide))]
      by_cases hc2 : (count_multi_semicolon (strip_line orig)).2 > 1
      · rw [if_pos ⟨show (count_multi_semicolon (strip_line orig)).1 ≠ 1 from
          by rw [hq1]; decide, hc2⟩]
        cases rec with
        | none =>
          refine ⟨?_, ?_⟩
          · simp only [List.map, List.sum_cons, List.sum_nil]
            have := hcntL
            omega
          · intro ln hln x hx
            rcases List.mem_cons.mp hln with rfl | hln
            · exact hplL x hx
            · exact absurd hln (List.not_mem_nil ln)
        | some f =>
          have hfr_plain : ∀ fr ∈ ((splitOnChar ';' (strip_line orig)).filter
              (fun ln => ln ≠ [])).map (fun ln => ln ++ [';']),
              ∀ x ∈ fr, plainChar x = true := by
            intro fr hfr x hx
            obtain ⟨p, hp, rfl⟩ := List.mem_map.mp hfr
            rcases List.mem_append.mp hx with hx | hx
            · exact hplL x (splitOnChar_mem_subset ';' (strip_line orig) p
                (List.mem_filter.mp hp).1 x hx)
            · rcases List.mem_cons.mp hx with rfl | hx
              · exact plainChar_semi
              · exact absurd hx (List.not_mem_nil x)
          refine ⟨?_, ?_⟩
          · rw [sum_map_flatten]
            rw [sum_map_congr _ _ (countChar tc)
              (fun fr hfr => (hrec f rfl fr (hfr_plain fr hfr)).1)]
            rw [List.map_map]
            have hstep : ((splitOnChar ';' (strip_line orig)).filter
                (fun ln => ln ≠ [])).map ((countChar tc) ∘ (fun ln => ln ++ [';'])) =
                ((splitOnChar ';' (strip_line orig)).filter
                  (fun ln => ln ≠ [])).map (countChar tc) := by
              apply map_congr_mem
              intro p hp
              simp only [Function.comp]
              rw [countChar_append, countChar_cons, if_neg (fun e => htsemi e.symm)]
              simp [countChar]
            rw [hstep, sum_filter_ne_nil, splitOnChar_count_sum ';' tc htsemi, hcntL]
          · intro ln hln x hx
            rw [List.mem_flatten] at hln
            obtain ⟨l', hl', hlnl⟩ := hln
            obtain ⟨fr, hfr, rfl⟩ := List.mem_map.mp hl'
            exact (hrec f rfl fr (hfr_plain fr hfr)).2 ln hlnl x hx
      · rw [if_neg (fun hh => hc2 hh.2)]
        by_cases hrw : startsWith rewriteKw (strip_line orig) = true
        · rw [if_pos hrw, stripVar_id_plain _ hplL]
          refine ⟨?_, ?_⟩
          · simp only [List.map, List.sum_cons, List.sum_nil]
            have := hcntL
            omega
          · intro ln hln x hx
            rcases List.mem_cons.mp hln with rfl | hln
            · exact hplL x hx
            · exact absurd hln (List.not_mem_nil ln)
        · rw [if_neg hrw]
          have hpieces : ∀ p ∈ (splitKeepBraces (strip_line orig)).filter
              (fun ln => ln ≠ []), ∀ x ∈ p, plainChar x = true := by
            intro p hp x hx
            exact hplL x (splitKeepBraces_mem_subset (strip_line orig) p
              (List.mem_filter.mp hp).1 x hx)
          have hmapeq : ((splitKeepBraces (strip_line orig)).filter
              (fun ln => ln ≠ [])).map (fun ln => pyStrip (strip_variable_template_tags ln)) =
              ((splitKeepBraces (strip_line orig)).filter
                (fun ln => ln ≠ [])).map pyStrip := by
            apply map_congr_mem
            intro p hp
            rw [stripVar_id_plain p (hpieces p hp)]
          rw [hmapeq]
          refine ⟨?_, ?_⟩
          · rw [List.map_map]
            rw [sum_map_congr _ _ (countChar tc)
              (fun p hp => by simp only [Function.comp]; exact countChar_pyStrip tc htsp p)]
            rw [sum_filter_ne_nil, splitKeepBraces_sum, hcntL]
          · intro ln hln x hx
            obtain ⟨p, hp, rfl⟩ := List.mem_map.mp hln
            exact hpieces p hp x (pyStrip_subset p x hx)
theorem clean_line_plain (tc : Char) (htsp : isPySpace tc = false) (htsemi : tc ≠ ';') :
    ∀ (fuel : Nat) (orig : Str), (∀ x ∈ orig, plainChar x = true) →
      ((((clean_line fuel orig).map (countChar tc)).sum = countChar tc orig) ∧
        ∀ ln ∈ clean_line fuel orig, ∀ x ∈ ln, plainChar x = true) := by
  intro fuel
  induction fuel with
  | zero =>
    intro orig hpl
    simp only [clean_line]
    exact clean_line_core_plain tc htsp htsemi none
      (fun f hf => Option.noConfusion hf) orig hpl
  | succ f ihf =>
    intro orig hpl
    simp only [clean_line]
    refine clean_line_core_plain tc htsp htsemi (some (fun fr => clean_line f fr))
      (fun g hg fr hfr => ?_) orig hpl
    injection hg with hg
    rw [← hg]
    exact ihf fr hfr

theorem clean_lines_plain (tc : Char) (htsp : isPySpace tc = false) (htsemi : tc ≠ ';')
    (lines : List Str) (h : ∀ l ∈ lines, ∀ x ∈ l, plainChar x = true) :
    (((clean_lines lines).map (countChar tc)).sum = ((lines.map (countChar tc)).sum)) ∧
    ∀ ln ∈ clean_lines lines, ∀ x ∈ ln, plainChar x = true := by
  unfold clean_lines
  constructor
  · rw [sum_map_flatten]
    exact sum_map_congr _ _ (countChar tc)
      (fun l hl => (clean_line_plain tc htsp htsemi _ l (h l hl)).1)
  · intro ln hln x hx
    rw [List.mem_flatten] at hln
    obtain ⟨l', hl', hlnl⟩ := hln
    obtain ⟨l0, hl0, rfl⟩ := List.mem_map.mp hl'
    exact (clean_line_plain tc htsp htsemi _ l0 (h l0 hl0)).2 ln hlnl x hx

theorem sum_map_reverse (tc : Char) (l : List Str) :
    ((l.reverse.map (countChar tc)).sum) = ((l.map (countChar tc)).sum) := by
  rw [List.map_reverse, List.sum_reverse]

theorem joinGo_sum (tc : Char) (htspace : tc ≠ ' ') :
    ∀ (rest acc : List Str),
      (((joinGo acc rest).map (countChar tc)).sum) =
        ((acc.map (countChar tc)).sum) + ((rest.map (countChar tc)).sum) := by
  intro rest
  induction rest with
  | nil =>
    intro acc
    simp only [joinGo, sum_map_reverse]
    simp
  | cons l rest' ih =>
    intro acc
    cases acc with
    | nil =>
      simp only [joinGo, ih]
      simp
    | cons a tl =>
      simp only [joinGo]
      by_cases hl : l = [obr]
      · rw [if_pos hl, ih]
        subst hl
        simp only [List.map, List.sum_cons, countChar_append]
        have hsp : countChar tc (' ' :: [obr]) = countChar tc [obr] := by
          rw [countChar_cons, if_neg (fun e => htspace e.symm)]
          omega
        rw [hsp]
        omega
      · rw [if_neg hl, ih]
        simp only [List.map, List.sum_cons]
        omega

theorem joinGo_mem :
    ∀ (rest acc : List Str) (ln : Str), ln ∈ joinGo acc rest → ∀ x ∈ ln,
      (∃ l0 ∈ acc, x ∈ l0) ∨ (∃ l0 ∈ rest, x ∈ l0) ∨ x = ' ' ∨ x = obr := by
  intro rest
  induction rest with
  | nil =>
    intro acc ln hln x hx
    simp only [joinGo] at hln
    rw [List.mem_reverse] at hln
    exact Or.inl ⟨ln, hln, hx⟩
  | cons l rest' ih =>
    intro acc ln hln x hx
    cases acc with
    | nil =>
      simp only [joinGo] at hln
      rcases ih [l] ln hln x hx with ⟨l0, hl0, hxl⟩ | ⟨l0, hl0, hxl⟩ | he | he
      · rcases List.mem_cons.mp hl0 with rfl | hl0
        · exact Or.inr (Or.inl ⟨l0, List.mem_cons_self l0 rest', hxl⟩)
        · exact absurd hl0 (List.not_mem_nil l0)
      · exact Or.inr (Or.inl ⟨l0, List.mem_cons_of_mem l hl0, hxl⟩)
      · exact Or.inr (Or.inr (Or.inl he))
      · exact Or.inr (Or.inr (Or.inr he))
    | cons a tl =>
      simp only [joinGo] at hln
      by_cases hl : l = [obr]
      · rw [if_pos hl] at hln
        rcases ih _ ln hln x hx with ⟨l0, hl0, hxl⟩ | ⟨l0, hl0, hxl⟩ | he | he
        · rcases List.mem_cons.mp hl0 with rfl | hl0
          · rcases List.mem_append.mp hxl with hxa | hxsp
            · exact Or.inl ⟨a, List.mem_cons_self a tl, hxa⟩
            · rcases List.mem_cons.mp hxsp with rfl | hxsp
              · exact Or.inr (Or.inr (Or.inl rfl))
              · rcases List.mem_cons.mp hxsp with rfl | hxsp
                · exact Or.inr (Or.inr (Or.inr rfl))
                · exact absurd hxsp (List.not_mem_nil x)
          · exact Or.inl ⟨l0, List.mem_cons_of_mem a hl0, hxl⟩
        · exact Or.inr (Or.inl ⟨l0, List.mem_cons_of_mem l hl0, hxl⟩)
        · exact Or.inr (Or.inr (Or.inl he))
        · exact Or.inr (Or.inr (Or.inr he))
      · rw [if_neg hl] at hln
        rcases ih _ ln hln x hx with ⟨l0, hl0, hxl⟩ | ⟨l0, hl0, hxl⟩ | he | he
        · rcases List.mem_cons.mp hl0 with rfl | hl0
          · exact Or.inr (Or.inl ⟨l0, List.mem_cons_self l0 rest', hxl⟩)
          · exact Or.inl ⟨l0, hl0, hxl⟩
        · exact Or.inr (Or.inl ⟨l0, List.mem_cons_of_mem l hl0, hxl⟩)
        · exact Or.inr (Or.inr (Or.inl he))
        · exact Or.inr (Or.inr (Or.inr he))

theorem indentGo_sum (tc : Char) (htspace : tc ≠ ' ') (ind : Nat) :
    ∀ (lines : List Str) (cur : Int),
      (((indentGo ind cur lines).map (countChar tc)).sum) =
        ((lines.map (countChar tc)).sum) := by
  intro lines
  induction lines with
  | nil => intro cur; rfl
  | cons line rest ih =>
    intro cur
    simp only [indentGo, List.map, List.sum_cons, ih]
    by_cases hne : line ≠ []
    · rw [if_pos hne, countChar_append, countChar_replicate_space tc htspace]
      omega
    · rw [if_neg hne]
      have : line = [] := by
        by_contra hc
        exact hne hc
      rw [this]

theorem indentGo_mem (ind : Nat) :
    ∀ (lines : List Str) (cur : Int) (ln : Str), ln ∈ indentGo ind cur lines →
      ∀ x ∈ ln, (∃ l0 ∈ lines, x ∈ l0) ∨ x = ' ' := by
  intro lines
  induction lines with
  | nil =>
    intro cur ln hln
    exact absurd hln (List.not_mem_nil ln)
  | cons line rest ih =>
    intro cur ln hln x hx
    simp only [indentGo] at hln
    rcases List.mem_cons.mp hln with rfl | hln
    · by_cases hne : line ≠ []
      · rw [if_pos hne] at hx
        rcases List.mem_append.mp hx with hxr | hxl
        · exact Or.inr (List.eq_of_mem_replicate hxr)
        · exact Or.inl ⟨line, List.mem_cons_self line rest, hxl⟩
      · rw [if_neg hne] at hx
        exact absurd hx (List.not_mem_nil x)
    · rcases ih _ ln hln x hx with ⟨l0, hl0, hxl⟩ | he
      · exact Or.inl ⟨l0, List.mem_cons_of_mem line hl0, hxl⟩
      · exact Or.inr he
theorem countChar_nl_cons (tc : Char) (htc : tc ≠ '\n') (s : Str) :
    countChar tc ('\n' :: s) = countChar tc s := by
  rw [countChar_cons, if_neg (show ¬ (('\n' : Char) = tc) from fun e => htc e.symm)]
  omega

theorem countChar_dropWhile_pred (tc : Char) (p : Char → Bool)
    (hp : ∀ x, p x = true → x ≠ tc) (s : Str) :
    countChar tc (s.dropWhile p) = countChar tc s := by
  induction s with
  | nil => rfl
  | cons c rest ih =>
    by_cases hc : p c = true
    · rw [List.dropWhile_cons_of_pos hc, ih, countChar_cons, if_neg (hp c hc)]
      omega
    · rw [List.dropWhile_cons_of_neg hc]

theorem squashGo_count (tc : Char) (htc : tc ≠ '\n') :
    ∀ (fuel : Nat) (budget : Nat) (s : Str),
      countChar tc (squashGo fuel budget s) = countChar tc s := by
  intro fuel
  induction fuel with
  | zero => intro budget s; cases s <;> rfl
  | succ f ihf =>
    intro budget s
    cases s with
    | nil => rfl
    | cons c rest =>
      simp only [squashGo]
      by_cases hcnd : c = '\n' ∧ rest.take 2 = ['\n', '\n']
      · rw [if_pos hcnd]
        obtain ⟨hc1, hc2⟩ := hcnd
        subst hc1
        cases budget with
        | zero => rfl
        | succ b =>
          have hrest : countChar tc rest = countChar tc (rest.drop 2) := by
            conv_lhs => rw [← List.take_append_drop 2 rest]
            rw [countChar_append, hc2, countChar_nl_cons tc htc,
              countChar_nl_cons tc htc]
            have h0 : countChar tc ([] : Str) = 0 := rfl
            omega
          have hdw : countChar tc ((rest.drop 2).dropWhile (fun x => x = '\n')) =
              countChar tc (rest.drop 2) :=
            countChar_dropWhile_pred tc _ (fun x hx => by
              simp only [decide_eq_true_eq] at hx
              intro he
              rw [he] at hx
              exact htc hx) (rest.drop 2)
          rw [countChar_nl_cons tc htc, countChar_nl_cons tc htc, countChar_nl_cons tc htc,
            ihf, hdw, countChar_nl_cons tc htc, hrest]
      · rw [if_neg hcnd, countChar_cons, countChar_cons, ihf]

theorem squashGo_mem (x : Char) :
    ∀ (fuel : Nat) (budget : Nat) (s : Str), x ∈ squashGo fuel budget s →
      x ∈ s ∨ x = '\n' := by
  intro fuel
  induction fuel with
  | zero =>
    intro budget s hx
    cases s with
    | nil => exact absurd hx (List.not_mem_nil x)
    | cons c rest => exact Or.inl hx
  | succ f ihf =>
    intro budget s hx
    cases s with
    | nil => exact absurd hx (List.not_mem_nil x)
    | cons c rest =>
      simp only [squashGo] at hx
      by_cases hcnd : c = '\n' ∧ rest.take 2 = ['\n', '\n']
      · rw [if_pos hcnd] at hx
        cases budget with
        | zero => exact Or.inl hx
        | succ b =>
          rcases List.mem_cons.mp hx with rfl | hx
          · exact Or.inr rfl
          · rcases List.mem_cons.mp hx with rfl | hx
            · exact Or.inr rfl
            · rcases List.mem_cons.mp hx with rfl | hx
              · exact Or.inr rfl
              · rcases ihf b _ hx with hm | he
                · have h1 : x ∈ rest.drop 2 := (List.dropWhile_sublist _).mem hm
                  exact Or.inl (List.mem_cons_of_mem c (List.drop_subset 2 rest h1))
                · exact Or.inr he
      · rw [if_neg hcnd] at hx
        rcases List.mem_cons.mp hx with rfl | hx
        · exact Or.inl (List.mem_cons_self x rest)
        · rcases ihf budget rest hx with hm | he
          · exact Or.inl (List.mem_cons_of_mem c hm)
          · exact Or.inr he

theorem stripLeadingNewline_count (tc : Char) (htc : tc ≠ '\n') (s : Str) :
    countChar tc (stripLeadingNewline s) = countChar tc s := by
  cases s with
  | nil => rfl
  | cons c rest =>
    simp only [stripLeadingNewline]
    by_cases hc : c = '\n'
    · subst hc
      rw [if_pos rfl, countChar_nl_cons tc htc]
    · rw [if_neg hc]

theorem stripLeadingNewline_mem (x : Char) (s : Str) (hx : x ∈ stripLeadingNewline s) :
    x ∈ s := by
  cases s with
  | nil => exact absurd hx (List.not_mem_nil x)
  | cons c rest =>
    simp only [stripLeadingNewline] at hx
    by_cases hc : c = '\n'
    · rw [if_pos hc] at hx
      exact List.mem_cons_of_mem c hx
    · rw [if_neg hc] at hx
      exact hx

theorem stripTrailing_eq2 (s : Str) (c1 c2 : Char) (r : Str) (heq : s.reverse = c1 :: c2 :: r) :
    stripTrailingNewlines s =
      if c1 = '\n' then (if c2 = '\n' then r.reverse else (c2 :: r).reverse) else s := by
  unfold stripTrailingNewlines
  rw [heq]

theorem stripTrailing_eq1 (s : Str) (c1 : Char) (heq : s.reverse = [c1]) :
    stripTrailingNewlines s = if c1 = '\n' then [] else s := by
  unfold stripTrailingNewlines
  rw [heq]

theorem stripTrailing_eq0 (s : Str) (heq : s.reverse = []) :
    stripTrailingNewlines s = s := by
  unfold stripTrailingNewlines
  rw [heq]

theorem stripTrailingNewlines_count (tc : Char) (htc : tc ≠ '\n') (s : Str) :
    countChar tc (stripTrailingNewlines s) = countChar tc s := by
  cases hrev : s.reverse with
  | nil => rw [stripTrailing_eq0 s hrev]
  | cons c1 rest1 =>
    cases rest1 with
    | nil =>
      rw [stripTrailing_eq1 s c1 hrev]
      by_cases h1 : c1 = '\n'
      · subst h1
        rw [if_pos rfl]
        have hs : countChar tc s = countChar tc ['\n'] := by
          rw [← countChar_reverse tc s, hrev]
        rw [hs, countChar_nl_cons tc htc]
        try rfl
      · rw [if_neg h1]
    | cons c2 r =>
      rw [stripTrailing_eq2 s c1 c2 r hrev]
      have hs : countChar tc s = countChar tc (c1 :: c2 :: r) := by
        rw [← countChar_reverse tc s, hrev]
      by_cases h1 : c1 = '\n'
      · subst h1
        rw [if_pos rfl]
        by_cases h2 : c2 = '\n'
        · subst h2
          rw [if_pos rfl, countChar_reverse, hs, countChar_nl_cons tc htc,
            countChar_nl_cons tc htc]
        · rw [if_neg h2, countChar_reverse, hs, countChar_nl_cons tc htc]
      · rw [if_neg h1]

theorem stripTrailingNewlines_mem (x : Char) (s : Str) (hx : x ∈ stripTrailingNewlines s) :
    x ∈ s := by
  revert hx
  cases hrev : s.reverse with
  | nil =>
    rw [stripTrailing_eq0 s hrev]
    exact id
  | cons c1 rest1 =>
    cases rest1 with
    | nil =>
      rw [stripTrailing_eq1 s c1 hrev]
      by_cases h1 : c1 = '\n'
      · rw [if_pos h1]
        intro hx
        exact absurd hx (List.not_mem_nil x)
      · rw [if_neg h1]
        exact id
    | cons c2 r =>
      rw [stripTrailing_eq2 s c1 c2 r hrev]
      by_cases h1 : c1 = '\n'
      · rw [if_pos h1]
        by_cases h2 : c2 = '\n'
        · rw [if_pos h2]
          intro hx
          rw [← List.mem_reverse, hrev]
          rw [List.mem_reverse] at hx
          exact List.mem_cons_of_mem c1 (List.mem_cons_of_mem c2 hx)
        · rw [if_neg h2]
          intro hx
          rw [← List.mem_reverse, hrev]
          rw [List.mem_reverse] at hx
          exact List.mem_cons_of_mem c1 hx
      · rw [if_neg h1]
        exact id
theorem plainChar_spec (x : Char) (h : plainChar x = true) :
    x ≠ '"' ∧ x ≠ sqc ∧ x ≠ '$' ∧ x ≠ '_' :=
  ⟨fun he => absurd (he ▸ h) (by decide),
   fun he => absurd (he ▸ h) (by decide),
   fun he => absurd (he ▸ h) (by decide),
   fun he => absurd (he ▸ h) (by decide)⟩

theorem apply_bracket_id (lines : List Str)
    (h : ∀ l ∈ lines, ∀ x ∈ l, x ≠ '"' ∧ x ≠ sqc) :
    apply_bracket_template_tags lines = lines := by
  induction lines with
  | nil => rfl
  | cons l rest ih =>
    have hrest := ih (fun l0 hl0 => h l0 (List.mem_cons_of_mem l hl0))
    unfold apply_bracket_template_tags at hrest ⊢
    simp only [List.map]
    rw [hrest]
    by_cases hs : startsWith ['#'] l = true
    · rw [if_pos hs]
    · rw [if_neg hs, brGo_id l (fun c hc hor =>
        hor.elim (h l (List.mem_cons_self l rest) c hc).1
          (h l (List.mem_cons_self l rest) c hc).2) false]

theorem strip_bracket_plain (s : Str) (h : ∀ x ∈ s, x ≠ '_') :
    strip_bracket_template_tags s = s := by
  have hb1 : brOpenTag = '_' :: brOpenTag.tail := rfl
  have hb2 : brCloseTag = '_' :: brCloseTag.tail := rfl
  unfold strip_bracket_template_tags replaceSubstr
  rw [hb1, replaceSubstrGo_id '_' brOpenTag.tail [obr] s h s.length]
  rw [hb2, replaceSubstrGo_id '_' brCloseTag.tail [cbr] s h s.length]

theorem luGo_plain (target : Char) :
    ∀ (s : Str), (∀ x ∈ s, x ≠ '"' ∧ x ≠ sqc) → ∀ prevBS,
      luGo target false prevBS s = countChar target s := by
  intro s
  induction s with
  | nil => intro _ prevBS; rfl
  | cons c rest ih =>
    intro h prevBS
    have hc := h c (List.mem_cons_self c rest)
    have hcond : ¬((c = '"' ∨ c = sqc) ∧ prevBS = false) := fun hn =>
      hn.1.elim hc.1 hc.2
    simp only [luGo]
    rw [if_neg hcond]
    rw [ih (fun x hx => h x (List.mem_cons_of_mem c hx)) (c == bsl), countChar_cons]
    by_cases hct : c = target
    · rw [if_pos ⟨rfl, hct⟩, if_pos hct]
    · rw [if_neg (fun hn => hct hn.2), if_neg hct]

theorem docUnquoted_plain (target : Char) (htb : isBreakChar target = false) (s : Str)
    (h : ∀ x ∈ s, x ≠ '"' ∧ x ≠ sqc) :
    docUnquoted target s = countChar target s := by
  unfold docUnquoted
  rw [sum_map_congr (splitlines s) _ (countChar target)
    (fun f hf => luGo_plain target f
      (fun x hx => h x (splitlines_mem_subset s f hf x hx)) false)]
  exact splitlines_sum target htb s

theorem format_plain (opts : FormatterOptions) (tc : Char)
    (htb : isBreakChar tc = false) (htsp : isPySpace tc = false)
    (htsemi : tc ≠ ';') (htspace : tc ≠ ' ') (htnl : tc ≠ '\n')
    (contents : Str) (h : ∀ x ∈ contents, plainChar x = true) :
    countChar tc (format_string opts contents) = countChar tc contents ∧
    ∀ x ∈ format_string opts contents, plainChar x = true := by
  have hL0mem : ∀ l ∈ splitlines contents, ∀ x ∈ l, plainChar x = true :=
    fun l hl x hx => h x (splitlines_mem_subset contents l hl x hx)
  have hL1 : apply_bracket_template_tags (splitlines contents) = splitlines contents :=
    apply_bracket_id (splitlines contents) (fun l hl x hx =>
      ⟨(plainChar_spec x (hL0mem l hl x hx)).1, (plainChar_spec x (hL0mem l hl x hx)).2.1⟩)
  obtain ⟨hL2sum, hL2mem⟩ :=
    clean_lines_plain tc htsp htsemi (splitlines contents) hL0mem
  have hfs0 : format_string opts contents =
      stripTrailingNewlines (stripLeadingNewline (squashNewlineRuns
        (strip_bracket_template_tags (joinChar '\n' (_perform_indentation opts.indentation
          (_join_opening_bracket (clean_lines (apply_bracket_template_tags
            (splitlines contents))))))))) ++ ['\n'] := rfl
  rw [hL1] at hfs0
  set L2 := clean_lines (splitlines contents) with hL2def
  set L3 := _join_opening_bracket L2 with hL3def
  have hL3sum : (L3.map (countChar tc)).sum = (L2.map (countChar tc)).sum := by
    rw [hL3def]
    unfold _join_opening_bracket
    rw [joinGo_sum tc htspace L2 []]
    simp
  have hL3mem : ∀ ln ∈ L3, ∀ x ∈ ln, plainChar x = true := by
    intro ln hln x hx
    rw [hL3def] at hln
    unfold _join_opening_bracket at hln
    rcases joinGo_mem L2 [] ln hln x hx with ⟨l0, hl0, _⟩ | ⟨l0, hl0, hxl⟩ | he | he
    · exact absurd hl0 (List.not_mem_nil l0)
    · exact hL2mem l0 hl0 x hxl
    · rw [he]; decide
    · rw [he]; decide
  set L4 := _perform_indentation opts.indentation L3 with hL4def
  have hL4sum : (L4.map (countChar tc)).sum = (L3.map (countChar tc)).sum := by
    rw [hL4def]
    unfold _perform_indentation
    exact indentGo_sum tc htspace opts.indentation L3 0
  have hL4mem : ∀ ln ∈ L4, ∀ x ∈ ln, plainChar x = true := by
    intro ln hln x hx
    rw [hL4def] at hln
    unfold _perform_indentation at hln
    rcases indentGo_mem opts.indentation L3 0 ln hln x hx with ⟨l0, hl0, hxl⟩ | he
    · exact hL3mem l0 hl0 x hxl
    · rw [he]; decide
  set t0 := joinChar '\n' L4 with ht0def
  have ht0cnt : countChar tc t0 = (L4.map (countChar tc)).sum := by
    rw [ht0def]; exact countChar_joinChar '\n' tc htnl L4
  have ht0mem : ∀ x ∈ t0, plainChar x = true := by
    intro x hx
    rw [ht0def] at hx
    rcases mem_joinChar '\n' L4 x hx with he | ⟨p, hp, hxp⟩
    · rw [he]; decide
    · exact hL4mem p hp x hxp
  have ht1 : strip_bracket_template_tags t0 = t0 :=
    strip_bracket_plain t0 (fun x hx => (plainChar_spec x (ht0mem x hx)).2.2.2)
  rw [ht1] at hfs0
  set t2 := squashNewlineRuns t0 with ht2def
  have ht2cnt : countChar tc t2 = countChar tc t0 := by
    rw [ht2def]
    unfold squashNewlineRuns
    exact squashGo_count tc htnl t0.length 8 t0
  have ht2mem : ∀ x ∈ t2, plainChar x = true := by
    intro x hx
    rw [ht2def] at hx
    unfold squashNewlineRuns at hx
    rcases squashGo_mem x t0.length 8 t0 hx with hm | he
    · exact ht0mem x hm
    · rw [he]; decide
  set t3 := stripLeadingNewline t2 with ht3def
  have ht3cnt : countChar tc t3 = countChar tc t2 := by
    rw [ht3def]; exact stripLeadingNewline_count tc htnl t2
  have ht3mem : ∀ x ∈ t3, plainChar x = true := by
    intro x hx
    rw [ht3def] at hx
    exact ht2mem x (stripLeadingNewline_mem x t2 hx)
  set t4 := stripTrailingNewlines t3 with ht4def
  have ht4cnt : countChar tc t4 = countChar tc t3 := by
    rw [ht4def]; exact stripTrailingNewlines_count tc htnl t3
  have ht4mem : ∀ x ∈ t4, plainChar x = true := by
    intro x hx
    rw [ht4def] at hx
    exact ht3mem x (stripTrailingNewlines_mem x t3 hx)
  constructor
  · rw [hfs0, countChar_append, ht4cnt, ht3cnt, ht2cnt, ht0cnt, hL4sum, hL3sum, hL2sum,
      splitlines_sum tc htb contents]
    have hnl0 : countChar tc ['\n'] = 0 := by
      rw [countChar_cons, if_neg (show ¬ (('\n' : Char) = tc) from fun e => htnl e.symm)]
      rfl
    rw [hnl0]
    omega
  · intro x hx
    rw [hfs0] at hx
    rcases List.mem_append.mp hx with hm | hm
    · exact ht4mem x hm
    · rcases List.mem_cons.mp hm with rfl | hm
      · decide
      · exact absurd hm (List.not_mem_nil x)

/-- C7 (amended): for documents built only from characters that cannot
interact with the quote or template-tag machinery (no `"`, no `'`, no
`$`, no `_`), `format_string` preserves the number of unquoted `\x7b`
characters and the number of unquoted `\x7d` characters.  (The original
claim, for all inputs, is refuted by `C7_counterexample`: splitting a
line inside a double-quoted string changes the quote context of a brace,
so an unquoted brace count can change.) -/
theorem C7_amended_brace_counts (opts : FormatterOptions) (contents : Str)
    (h : ∀ x ∈ contents, plainChar x = true) :
    docUnquoted obr (format_string opts contents) = docUnquoted obr contents ∧
    docUnquoted cbr (format_string opts contents) = docUnquoted cbr contents := by
  have hin : ∀ x ∈ contents, x ≠ '"' ∧ x ≠ sqc := fun x hx =>
    ⟨(plainChar_spec x (h x hx)).1, (plainChar_spec x (h x hx)).2.1⟩
  have hobr := format_plain opts obr (by decide) (by decide) (by decide) (by decide)
    (by decide) contents h
  have hcbr := format_plain opts cbr (by decide) (by decide) (by decide) (by decide)
    (by decide) contents h
  have hout : ∀ x ∈ format_string opts contents, x ≠ '"' ∧ x ≠ sqc := fun x hx =>
    ⟨(plainChar_spec x (hobr.2 x hx)).1, (plainChar_spec x (hobr.2 x hx)).2.1⟩
  constructor
  · rw [docUnquoted_plain obr (by decide) _ hout,
      docUnquoted_plain obr (by decide) contents hin]
    exact hobr.1
  · rw [docUnquoted_plain cbr (by decide) _ hout,
      docUnquoted_plain cbr (by decide) contents hin]
    exact hcbr.1

/-- Witness for `C7_amended_brace_counts` at the concrete document
`a \x7b b; c; \x7d`: its characters are all plain, and both unquoted
brace counts are preserved by `format_string`. -/
theorem C7_amended_witness :
    (∀ x ∈ ("a \x7b b; c; \x7d").data, plainChar x = true) ∧
    docUnquoted obr (format_string defaultOpts (("a \x7b b; c; \x7d").data)) =
      docUnquoted obr (("a \x7b b; c; \x7d").data) ∧
    docUnquoted cbr (format_string defaultOpts (("a \x7b b; c; \x7d").data)) =
      docUnquoted cbr (("a \x7b b; c; \x7d").data) :=
  ⟨by decide,
    (C7_amended_brace_counts defaultOpts (("a \x7b b; c; \x7d").data) (by decide)).1,
    (C7_amended_brace_counts defaultOpts (("a \x7b b; c; \x7d").data) (by decide)).2⟩
